import Mathlib

/-!
# Verification of the graphserver ETL core

Shallow embedding, in Lean 4, of the Cross-Reference Resolution and
Incremental Graph Synchronization engine of the graphserver repository:

* `src/company-specific/etl/jira-github-integration/jira_github_etl.py`
* `src/etl/jira/jira_etl.py`
* `src/etl/github/github_etl.py`
* `src/etl/cross-reference/cross_ref_etl.py`

The graph store (Neo4j) is modelled as lists of key-indexed nodes plus a
list of edges; `MERGE` on a node with a following `SET` is modelled as an
in-place keyed upsert, `MERGE` on a node without a `SET` and `MERGE` on a
relationship are modelled as append-if-absent.  Regular-expression
matchers (Python `re`, `apoc.text.regexGroups`) are opaque configurable
parameters, exactly as the pattern tables are configuration to the code;
Python's substring operator `in` and Cypher's `CONTAINS` are modelled
concretely.  Timestamps (`datetime()` / `lastSynced`) are modelled as an
abstract `Nat` clock passed to each transaction.
-/

namespace GraphServer

/-! ## Generic list primitives -/

/-- Does `hay` start with `needle`?  (Helper for the substring test.) -/
def listStartsWith : List Char → List Char → Bool
  | _, [] => true
  | [], _ :: _ => false
  | a :: as, b :: bs => a == b && listStartsWith as bs

/-- Does `hay` contain `needle` as a contiguous sublist? -/
def listContainsSub (hay needle : List Char) : Bool :=
  match hay with
  | [] => needle.isEmpty
  | _ :: t => listStartsWith hay needle || listContainsSub t needle

/-- Python's `needle in hay` on strings, and Cypher's `hay CONTAINS needle`:
substring containment. -/
def pyIn (needle hay : String) : Bool :=
  listContainsSub hay.data needle.data

/-- Cypher `MERGE` on a node pattern with no `SET` clause, and `MERGE` on a
relationship: append the element if it is not already present. -/
def ensureMem {α : Type} [DecidableEq α] (x : α) (l : List α) : List α :=
  if x ∈ l then l else l ++ [x]

/-- Ensure every element of `cs`, in order, into `l`. -/
def foldEnsure {α : Type} [DecidableEq α] (l : List α) (cs : List α) : List α :=
  cs.foldl (fun acc c => ensureMem c acc) l

/-- Cypher `MERGE (n {key: k}) SET n += v` against a key-indexed node list:
overwrite the properties of every node with key `k` if one exists,
otherwise append a fresh `(k, v)` entry. -/
def upsertList {κ ν : Type} [DecidableEq κ] (k : κ) (v : ν)
    (l : List (κ × ν)) : List (κ × ν) :=
  if k ∈ l.map Prod.fst then
    l.map (fun p => if p.1 = k then (k, v) else p)
  else
    l ++ [(k, v)]

/-- Upsert one node per record of `d`, in order: `key` extracts the natural
key, `val` the property bag. -/
def upsertFold {κ ν ρ : Type} [DecidableEq κ] (key : ρ → κ) (val : ρ → ν)
    (d : List ρ) (l : List (κ × ν)) : List (κ × ν) :=
  d.foldl (fun acc r => upsertList (key r) (val r) acc) l

/-! ## Lemmas about `ensureMem` / `foldEnsure` -/

theorem ensureMem_of_mem {α : Type} [DecidableEq α] {x : α} {l : List α}
    (h : x ∈ l) : ensureMem x l = l := by
  simp [ensureMem, h]

theorem mem_ensureMem_self {α : Type} [DecidableEq α] (x : α) (l : List α) :
    x ∈ ensureMem x l := by
  by_cases h : x ∈ l <;> simp [ensureMem, h]

theorem mem_ensureMem_of_mem {α : Type} [DecidableEq α] {y : α} (x : α)
    {l : List α} (h : y ∈ l) : y ∈ ensureMem x l := by
  by_cases hx : x ∈ l <;> simp [ensureMem, hx, h]

@[simp] theorem mem_ensureMem_iff {α : Type} [DecidableEq α] {x y : α}
    {l : List α} : y ∈ ensureMem x l ↔ y ∈ l ∨ y = x := by
  by_cases hx : x ∈ l
  · simp only [ensureMem, hx, if_pos]
    constructor
    · exact fun h => Or.inl h
    · rintro (h | rfl) <;> assumption
  · simp [ensureMem, hx]

theorem mem_foldEnsure_of_mem {α : Type} [DecidableEq α] {y : α}
    {l : List α} (cs : List α) (h : y ∈ l) : y ∈ foldEnsure l cs := by
  induction cs generalizing l with
  | nil => exact h
  | cons c cs ih => exact ih (mem_ensureMem_of_mem c h)

theorem mem_foldEnsure_of_mem_cands {α : Type} [DecidableEq α] {y : α}
    {l : List α} {cs : List α} (h : y ∈ cs) : y ∈ foldEnsure l cs := by
  induction cs generalizing l with
  | nil => cases h
  | cons c cs ih =>
    rcases List.mem_cons.mp h with rfl | h
    · exact mem_foldEnsure_of_mem cs (mem_ensureMem_self y l)
    · exact ih h

@[simp] theorem mem_foldEnsure_iff {α : Type} [DecidableEq α] {y : α}
    {l cs : List α} : y ∈ foldEnsure l cs ↔ y ∈ l ∨ y ∈ cs := by
  induction cs generalizing l with
  | nil => simp [foldEnsure]
  | cons c cs ih =>
    show y ∈ foldEnsure (ensureMem c l) cs ↔ _
    rw [ih, mem_ensureMem_iff]
    simp only [List.mem_cons]
    tauto

theorem foldEnsure_of_forall_mem {α : Type} [DecidableEq α]
    {l cs : List α} (h : ∀ c ∈ cs, c ∈ l) : foldEnsure l cs = l := by
  induction cs with
  | nil => rfl
  | cons c cs ih =>
    show foldEnsure (ensureMem c l) cs = l
    rw [ensureMem_of_mem (h c (by simp))]
    exact ih fun c hc => h c (by simp [hc])

theorem foldEnsure_absorb {α : Type} [DecidableEq α] (l cs : List α) :
    foldEnsure (foldEnsure l cs) cs = foldEnsure l cs :=
  foldEnsure_of_forall_mem fun _ hc => mem_foldEnsure_of_mem_cands hc

theorem foldEnsure_append {α : Type} [DecidableEq α] (l cs ds : List α) :
    foldEnsure l (cs ++ ds) = foldEnsure (foldEnsure l cs) ds :=
  List.foldl_append ..

/-! ## Lemmas about `upsertList` / `upsertFold` -/

section Upsert

variable {κ ν ρ : Type} [DecidableEq κ]

theorem upsertList_of_mem {k : κ} {l : List (κ × ν)} (v : ν)
    (h : k ∈ l.map Prod.fst) :
    upsertList k v l = l.map (fun p => if p.1 = k then (k, v) else p) := by
  simp [upsertList, h]

theorem upsertList_of_not_mem {k : κ} {l : List (κ × ν)} (v : ν)
    (h : k ∉ l.map Prod.fst) : upsertList k v l = l ++ [(k, v)] := by
  simp [upsertList, h]

theorem upsertList_map_fst (k : κ) (v : ν) (l : List (κ × ν)) :
    (upsertList k v l).map Prod.fst = ensureMem k (l.map Prod.fst) := by
  by_cases h : k ∈ l.map Prod.fst
  · rw [upsertList_of_mem v h, ensureMem_of_mem h, List.map_map]
    apply List.map_congr_left
    intro p _
    by_cases hp : p.1 = k <;> simp [hp]
  · rw [upsertList_of_not_mem v h]
    simp [ensureMem, h]

theorem upsertFold_append_singleton (key : ρ → κ) (val : ρ → ν)
    (d : List ρ) (r : ρ) (l : List (κ × ν)) :
    upsertFold key val (d ++ [r]) l =
      upsertList (key r) (val r) (upsertFold key val d l) :=
  List.foldl_append ..

theorem upsertFold_map_fst (key : ρ → κ) (val : ρ → ν) (d : List ρ)
    (l : List (κ × ν)) :
    (upsertFold key val d l).map Prod.fst =
      foldEnsure (l.map Prod.fst) (d.map key) := by
  induction d generalizing l with
  | nil => rfl
  | cons r d ih =>
    show (upsertFold key val d (upsertList (key r) (val r) l)).map Prod.fst = _
    rw [ih, upsertList_map_fst]
    rfl

theorem key_mem_upsertFold (key : ρ → κ) (val : ρ → ν) {d : List ρ} {r : ρ}
    (hr : r ∈ d) (l : List (κ × ν)) :
    key r ∈ (upsertFold key val d l).map Prod.fst := by
  rw [upsertFold_map_fst]
  exact mem_foldEnsure_of_mem_cands (List.mem_map_of_mem key hr)

theorem upsertList_append_tail {k : κ} {l t : List (κ × ν)} (v : ν)
    (hk : k ∈ l.map Prod.fst) (ht : ∀ p ∈ t, p.1 ≠ k) :
    upsertList k v (l ++ t) = upsertList k v l ++ t := by
  have hmem : k ∈ (l ++ t).map Prod.fst := by
    simp only [List.map_append, List.mem_append]; exact Or.inl hk
  rw [upsertList_of_mem v hmem, upsertList_of_mem v hk, List.map_append]
  congr 1
  apply List.map_congr_left (fun p hp => by simp [ht p hp]) |>.trans (List.map_id t)

theorem upsertFold_append_tail (key : ρ → κ) (val : ρ → ν) {d : List ρ}
    {l t : List (κ × ν)} (hd : ∀ r ∈ d, key r ∈ l.map Prod.fst)
    (ht : ∀ p ∈ t, ∀ r ∈ d, p.1 ≠ key r) :
    upsertFold key val d (l ++ t) = upsertFold key val d l ++ t := by
  induction d generalizing l with
  | nil => rfl
  | cons r d ih =>
    show upsertFold key val d (upsertList (key r) (val r) (l ++ t)) = _
    rw [upsertList_append_tail (val r) (hd r (by simp))
      (fun p hp => ht p hp r (by simp))]
    exact ih
      (fun r' hr' => by
        rw [upsertList_map_fst, ensureMem_of_mem (hd r (by simp))]
        exact hd r' (by simp [hr']))
      (fun p hp r' hr' => ht p hp r' (by simp [hr']))

/-- Two node lists that agree entirely except possibly on the property bags
of the entries whose key is `j`. -/
def EqExceptKey (j : κ) (X Y : List (κ × ν)) : Prop :=
  List.Forall₂ (fun a b => a.1 = b.1 ∧ (a.1 ≠ j → a = b)) X Y

theorem eqExceptKey_keys {j : κ} {X Y : List (κ × ν)}
    (h : EqExceptKey j X Y) : X.map Prod.fst = Y.map Prod.fst := by
  induction h with
  | nil => rfl
  | cons hab _ ih => simp [ih, hab.1]

theorem eqExceptKey_upsert_left {j : κ} {X : List (κ × ν)}
    (h : j ∈ X.map Prod.fst) (v : ν) :
    EqExceptKey j (upsertList j v X) X := by
  rw [upsertList_of_mem v h]
  unfold EqExceptKey
  rw [List.forall₂_map_left_iff]
  rw [List.forall₂_same]
  intro p _
  by_cases hp : p.1 = j <;> simp [hp]

theorem eqExceptKey_upsertList {j k : κ} {X Y : List (κ × ν)} (v : ν)
    (h : EqExceptKey j X Y) :
    EqExceptKey j (upsertList k v X) (upsertList k v Y) := by
  by_cases hk : k ∈ X.map Prod.fst
  · rw [upsertList_of_mem v hk, upsertList_of_mem v (eqExceptKey_keys h ▸ hk)]
    unfold EqExceptKey at h ⊢
    rw [List.forall₂_map_left_iff, List.forall₂_map_right_iff]
    refine List.Forall₂.imp ?_ h
    intro a b hab
    by_cases ha : a.1 = k
    · simp [ha, hab.1 ▸ ha]
    · have hb : b.1 ≠ k := hab.1 ▸ ha
      simpa [ha, hb] using hab
  · rw [upsertList_of_not_mem v hk,
      upsertList_of_not_mem v (eqExceptKey_keys h ▸ hk)]
    exact List.rel_append h (List.forall₂_same.mpr (by simp))

theorem eqExceptKey_upsertFold (key : ρ → κ) (val : ρ → ν) (d : List ρ)
    {j : κ} {X Y : List (κ × ν)} (h : EqExceptKey j X Y) :
    EqExceptKey j (upsertFold key val d X) (upsertFold key val d Y) := by
  induction d generalizing X Y with
  | nil => exact h
  | cons r d ih => exact ih (eqExceptKey_upsertList (val r) h)

theorem eqExceptKey_eq_of_not_mem {j : κ} {X Y : List (κ × ν)}
    (h : EqExceptKey j X Y) (hj : j ∉ X.map Prod.fst) : X = Y := by
  induction h with
  | nil => rfl
  | @cons a b l₁ l₂ hab h ih =>
    simp only [List.map_cons, List.mem_cons, not_or] at hj
    rw [hab.2 (fun hc => hj.1 hc.symm), ih hj.2]

theorem upsertList_eq_of_eqExceptKey {j : κ} {X Y : List (κ × ν)} (v : ν)
    (h : EqExceptKey j X Y) : upsertList j v X = upsertList j v Y := by
  have hmap : X.map (fun p => if p.1 = j then (j, v) else p)
      = Y.map (fun p => if p.1 = j then (j, v) else p) := by
    induction h with
    | nil => rfl
    | @cons a b l₁ l₂ hab h ih =>
      simp only [List.map_cons, ih]
      congr 1
      by_cases ha : a.1 = j
      · simp [ha, hab.1 ▸ ha]
      · simp [ha, hab.1 ▸ ha, hab.2 ha]
  by_cases hj : j ∈ X.map Prod.fst
  · rw [upsertList_of_mem v hj, upsertList_of_mem v (eqExceptKey_keys h ▸ hj),
      hmap]
  · rw [eqExceptKey_eq_of_not_mem h hj]

theorem upsertList_append_same {k : κ} {Y : List (κ × ν)} (v w : ν)
    (hk : k ∉ Y.map Prod.fst) :
    upsertList k v (Y ++ [(k, w)]) = Y ++ [(k, v)] := by
  have hmem : k ∈ (Y ++ [(k, w)]).map Prod.fst := by simp
  rw [upsertList_of_mem v hmem, List.map_append]
  congr 1
  · refine (List.map_congr_left fun p hp => ?_).trans (List.map_id Y)
    have hpk : p.1 ≠ k := fun hc => hk (hc ▸ List.mem_map_of_mem Prod.fst hp)
    simp [hpk]
  · simp

theorem map_fst_map_pair {κ ν ν' : Type} (f : ν → ν') (l : List (κ × ν)) :
    (l.map (fun p => (p.1, f p.2))).map Prod.fst = l.map Prod.fst := by
  rw [List.map_map]
  rfl

/-- Upserting commutes with any key-preserving projection of the
property bags. -/
theorem upsertList_map_snd {ν' : Type} (f : ν → ν') (k : κ) (v : ν)
    (l : List (κ × ν)) :
    (upsertList k v l).map (fun p => (p.1, f p.2)) =
      upsertList k (f v) (l.map (fun p => (p.1, f p.2))) := by
  by_cases h : k ∈ l.map Prod.fst
  · have h' : k ∈ (l.map (fun p => (p.1, f p.2))).map Prod.fst := by
      rw [map_fst_map_pair]; exact h
    rw [upsertList_of_mem v h, upsertList_of_mem (f v) h', List.map_map,
      List.map_map]
    apply List.map_congr_left
    intro p _
    by_cases hp : p.1 = k <;> simp [hp]
  · have h' : k ∉ (l.map (fun p => (p.1, f p.2))).map Prod.fst := by
      rw [map_fst_map_pair]; exact h
    rw [upsertList_of_not_mem v h, upsertList_of_not_mem (f v) h']
    simp

theorem upsertFold_map_snd {ν' : Type} (key : ρ → κ) (val : ρ → ν)
    (f : ν → ν') (d : List ρ) (l : List (κ × ν)) :
    (upsertFold key val d l).map (fun p => (p.1, f p.2)) =
      upsertFold key (fun r => f (val r)) d (l.map (fun p => (p.1, f p.2))) := by
  induction d generalizing l with
  | nil => rfl
  | cons r d ih =>
    show (upsertFold key val d (upsertList (key r) (val r) l)).map _ = _
    rw [ih, upsertList_map_snd]
    rfl

/-- The crucial upsert law: re-upserting the same records a second time
(possibly with refreshed property bags `v₂`, e.g. a new sync timestamp)
produces exactly the node list of a single pass with `v₂`. -/
theorem upsertFold_upsertFold (key : ρ → κ) (v₁ v₂ : ρ → ν) (d : List ρ)
    (l : List (κ × ν)) :
    upsertFold key v₂ d (upsertFold key v₁ d l) = upsertFold key v₂ d l := by
  induction d using List.reverseRecOn with
  | nil => rfl
  | append_singleton ds j ih =>
    have hdkeys : ∀ r ∈ ds, key r ∈ (upsertFold key v₁ ds l).map Prod.fst :=
      fun r hr => key_mem_upsertFold key v₁ hr l
    rw [upsertFold_append_singleton, upsertFold_append_singleton,
      upsertFold_append_singleton]
    by_cases hj : key j ∈ (upsertFold key v₁ ds l).map Prod.fst
    · have h1 := eqExceptKey_upsert_left hj (v₁ j)
      have h2 := eqExceptKey_upsertFold key v₂ ds h1
      rw [upsertList_eq_of_eqExceptKey (v₂ j) h2, ih]
    · have htail : ∀ p ∈ [(key j, v₁ j)], ∀ r ∈ ds, p.1 ≠ key r := by
        intro p hp r hr
        simp only [List.mem_singleton] at hp
        subst hp
        intro hc
        have hjr : key j = key r := hc
        exact hj (by rw [hjr]; exact hdkeys r hr)
      rw [upsertList_of_not_mem (v₁ j) hj,
        upsertFold_append_tail key v₂ hdkeys htail, ih]
      have hjY : key j ∉ (upsertFold key v₂ ds l).map Prod.fst := by
        rw [upsertFold_map_fst]
        rw [upsertFold_map_fst] at hj
        exact hj
      rw [upsertList_append_same (v₂ j) (v₁ j) hjY,
        upsertList_of_not_mem (v₂ j) hjY]

end Upsert

/-! ## Data model of `jira_github_etl.py`

`JiraIssueData` and `GitHubIssueData` mirror the two dataclasses;
`datetime` fields are kept as opaque ISO strings (the code only ever
serialises them with `isoformat()` before handing them to the store). -/

structure JiraIssueData where
  key : String
  summary : String
  description : String
  status : String
  priority : String
  issueType : String
  project : String
  created : String
  updated : String
  assignee : String
  reporter : String
  labels : List String
  components : List String
  deriving DecidableEq, Repr

structure GitHubIssueData where
  repository : String
  number : Nat
  title : String
  body : String
  state : String
  created : String
  updated : String
  author : String
  url : String
  labels : List String
  organization : String
  issueType : String
  deriving DecidableEq, Repr

/-- Properties `SET` on a `:JiraIssue` node by `_create_jira_issue`
(everything but the merge key, plus `lastSynced = datetime()`). -/
structure JiraNodeProps where
  summary : String
  description : String
  status : String
  priority : String
  issueType : String
  project : String
  created : String
  updated : String
  assignee : String
  reporter : String
  labels : List String
  components : List String
  lastSynced : Nat
  deriving DecidableEq, Repr

/-- Properties `SET` on a `:GitHubIssue` node by `_create_github_issue`. -/
structure GithubNodeProps where
  title : String
  body : String
  state : String
  created : String
  updated : String
  author : String
  url : String
  labels : List String
  organization : String
  issueType : String
  lastSynced : Nat
  deriving DecidableEq, Repr

/-- Properties `SET` on a `:GitHubRepository` node. -/
structure RepoNodeProps where
  name : String
  owner : String
  category : String
  deriving DecidableEq, Repr

/-- A node reference in the integrated-ETL graph, by label and natural key. -/
inductive JGRef where
  | jira (key : String)
  | project (key : String)
  | github (repo : String) (number : Nat)
  | repo (fullName : String)
  | org (name : String)
  | tech (name : String)
  | comp (name : String)
  deriving DecidableEq, Repr

structure JGEdge where
  src : JGRef
  rel : String
  dst : JGRef
  deriving DecidableEq, Repr

/-- The Neo4j graph state touched by `jira_github_etl.py`, as key-indexed
node lists plus an edge list. -/
structure JGGraph where
  jiraIssues : List (String × JiraNodeProps)
  jiraProjects : List (String × String)
  githubIssues : List ((String × Nat) × GithubNodeProps)
  repositories : List (String × RepoNodeProps)
  organizations : List String
  technologies : List String
  components : List String
  edges : List JGEdge
  deriving DecidableEq, Repr

def JGGraph.empty : JGGraph := ⟨[], [], [], [], [], [], [], []⟩

/-- Total node count of the graph, over every node label. -/
def JGGraph.nodeCount (g : JGGraph) : Nat :=
  g.jiraIssues.length + g.jiraProjects.length + g.githubIssues.length +
    g.repositories.length + g.organizations.length + g.technologies.length +
    g.components.length

def JGGraph.edgeCount (g : JGGraph) : Nat := g.edges.length

/-- The `CASE` expression of `_create_jira_issue` naming the project node. -/
def projectDisplayName (project : String) : String :=
  if project = "AAPRFE" then "Ansible Automation Platform RFEs"
  else if project = "ANSTRAT" then "Ansible Strategy"
  else project

/-- Property bag stored for a JIRA issue record at sync time `now`. -/
def jiraNodeProps (now : Nat) (i : JiraIssueData) : JiraNodeProps :=
  ⟨i.summary, i.description, i.status, i.priority, i.issueType, i.project,
    i.created, i.updated, i.assignee, i.reporter, i.labels, i.components, now⟩

/-- `_create_jira_issue`: `MERGE` the issue node and `SET` its properties,
`MERGE` the project node and `SET` its display name, `MERGE` the
`BELONGS_TO` edge. -/
def createJiraIssueTx (now : Nat) (i : JiraIssueData) (g : JGGraph) : JGGraph :=
  { g with
    jiraIssues := upsertList i.key (jiraNodeProps now i) g.jiraIssues
    jiraProjects :=
      upsertList i.project (projectDisplayName i.project) g.jiraProjects
    edges :=
      ensureMem ⟨.jira i.key, "BELONGS_TO", .project i.project⟩ g.edges }

/-- Cypher `split($repository, '/')[1]` (empty when there is no slash). -/
def repoShortName (repository : String) : String :=
  (repository.splitOn "/").getD 1 ""

/-- `_get_repo_category`: first configured category whose repository list
contains the name, else `collections` for ansible-collections repos,
else `other`. -/
def getRepoCategory (repoCategories : List (String × List String))
    (repoName : String) : String :=
  match repoCategories.find? (fun p => repoName ∈ p.2) with
  | some p => p.1
  | none => if pyIn "ansible-collections" repoName then "collections" else "other"

/-- Property bag stored for a GitHub issue record at sync time `now`. -/
def githubNodeProps (now : Nat) (i : GitHubIssueData) : GithubNodeProps :=
  ⟨i.title, i.body, i.state, i.created, i.updated, i.author, i.url, i.labels,
    i.organization, i.issueType, now⟩

/-- `_create_github_issue`: `MERGE`/`SET` issue and repository nodes,
`MERGE` the organization node (no `SET`), ensure `BELONGS_TO` and
`OWNED_BY` edges. -/
def createGitHubIssueTx (repoCategories : List (String × List String))
    (now : Nat) (i : GitHubIssueData) (g : JGGraph) : JGGraph :=
  { g with
    githubIssues :=
      upsertList (i.repository, i.number) (githubNodeProps now i) g.githubIssues
    repositories :=
      upsertList i.repository
        ⟨repoShortName i.repository, i.organization,
          getRepoCategory repoCategories i.repository⟩ g.repositories
    organizations := ensureMem i.organization g.organizations
    edges :=
      ensureMem ⟨.repo i.repository, "OWNED_BY", .org i.organization⟩
        (ensureMem ⟨.github i.repository i.number, "BELONGS_TO", .repo i.repository⟩
          g.edges) }

/-- A configured extraction pattern of the integrated ETL, as an opaque
matcher: the full-match list `apoc.text.regexGroups(text, pattern) | x[0]`
(for cross-references) or `re.findall(pattern, text)` with the
string-or-first-group convention (for technologies). -/
abbrev JGMatcher := String → List String

/-- The `MERGE` rows of one `_create_cross_references` query: for every
GitHub issue node, every extracted JIRA reference that names an existing
`:JiraIssue` node yields the `ADDRESSES` / `TRACKED_IN` edge pair; an
unmatched reference yields no row. -/
def jgCrossRefCands (m : JGMatcher) (g : JGGraph) : List JGEdge :=
  g.githubIssues.flatMap (fun gp =>
    (m (gp.2.body ++ " " ++ gp.2.title)).flatMap (fun ref =>
      if ref ∈ g.jiraIssues.map Prod.fst then
        [⟨.github gp.1.1 gp.1.2, "ADDRESSES", .jira ref⟩,
         ⟨.jira ref, "TRACKED_IN", .github gp.1.1 gp.1.2⟩]
      else []))

/-- One pattern's query inside `_create_cross_references`. -/
def crossRefPatternTx (m : JGMatcher) (g : JGGraph) : JGGraph :=
  { g with edges := foldEnsure g.edges (jgCrossRefCands m g) }

/-- `_create_cross_references`: run the query once per configured pattern. -/
def createCrossReferencesTx (pats : List JGMatcher) (g : JGGraph) : JGGraph :=
  pats.foldl (fun g m => crossRefPatternTx m g) g

/-- `_create_technology_link`: `MATCH` the mentioning item (a miss does
nothing at all), then `MERGE` the lower-cased technology node and the
`INVOLVES` edge. -/
def createTechnologyLinkTx (target : JGRef) (techName : String)
    (g : JGGraph) : JGGraph :=
  match target with
  | .jira k =>
    if k ∈ g.jiraIssues.map Prod.fst then
      { g with
        technologies := ensureMem techName.toLower g.technologies
        edges :=
          ensureMem ⟨target, "INVOLVES", .tech techName.toLower⟩ g.edges }
    else g
  | .github repo num =>
    if (repo, num) ∈ g.githubIssues.map Prod.fst then
      { g with
        technologies := ensureMem techName.toLower g.technologies
        edges :=
          ensureMem ⟨target, "INVOLVES", .tech techName.toLower⟩ g.edges }
    else g
  | _ => g

/-- `_extract_technologies`: lower-case each record's text, run every
technology pattern over it, and link every match. -/
def extractTechnologiesTx (pats : List JGMatcher) (jrecs : List JiraIssueData)
    (grecs : List GitHubIssueData) (g : JGGraph) : JGGraph :=
  let g1 := jrecs.foldl (fun g i =>
    pats.foldl (fun g m =>
      (m ((i.summary ++ " " ++ i.description).toLower)).foldl
        (fun g w => createTechnologyLinkTx (.jira i.key) w g) g) g) g
  grecs.foldl (fun g i =>
    pats.foldl (fun g m =>
      (m ((i.title ++ " " ++ i.body).toLower)).foldl
        (fun g w => createTechnologyLinkTx (.github i.repository i.number) w g)
        g) g) g1

/-- `WHERE` condition of the JIRA-side component query, for one
(lower-cased) keyword. -/
def compJiraCond (kw : String) (p : JiraNodeProps) : Bool :=
  p.components.any (fun c => pyIn kw c.toLower) ||
    pyIn kw p.summary.toLower || pyIn kw p.description.toLower

/-- `WHERE` condition of the repository-side component query. -/
def compRepoCond (kw : String) (fullName : String) (p : RepoNodeProps) : Bool :=
  pyIn kw p.name.toLower || pyIn kw fullName.toLower

/-- `_create_component_relationships`: for every mapping entry and keyword,
`MERGE` the component node and an `AFFECTS` edge per matching JIRA issue,
then an `IMPLEMENTS` edge per matching repository. -/
def createComponentRelationshipsTx (mapping : List (String × List String))
    (g : JGGraph) : JGGraph :=
  mapping.foldl (fun g p =>
    p.2.foldl (fun g keyword =>
      let kw := keyword.toLower
      let g1 := g.jiraIssues.foldl (fun (acc : JGGraph) jp =>
        if compJiraCond kw jp.2 then
          { acc with
            components := ensureMem p.1 acc.components
            edges := ensureMem ⟨.jira jp.1, "AFFECTS", .comp p.1⟩ acc.edges }
        else acc) g
      g.repositories.foldl (fun (acc : JGGraph) rp =>
        if compRepoCond kw rp.1 rp.2 then
          { acc with
            components := ensureMem p.1 acc.components
            edges := ensureMem ⟨.repo rp.1, "IMPLEMENTS", .comp p.1⟩ acc.edges }
        else acc) g1) g) g

/-- The `processing` / `github` configuration consumed by the load stage. -/
structure JGConfig where
  repositories : List (String × List String)
  jiraReferencePatterns : List JGMatcher
  technologyPatterns : List JGMatcher
  componentMapping : List (String × List String)

/-- The graph effect of one full `_load_to_neo4j` call at sync time `now`:
upsert every JIRA issue, upsert every GitHub issue, create
cross-references, extract technologies, create component relationships.
(`_cleanup_stale_data` is an external APOC procedure, out of the engine's
contract.) -/
def fullSyncLoad (cfg : JGConfig) (now : Nat) (jrecs : List JiraIssueData)
    (grecs : List GitHubIssueData) (g : JGGraph) : JGGraph :=
  let g1 := jrecs.foldl (fun g i => createJiraIssueTx now i g) g
  let g2 := grecs.foldl (fun g i => createGitHubIssueTx cfg.repositories now i g) g1
  let g3 := createCrossReferencesTx cfg.jiraReferencePatterns g2
  let g4 := extractTechnologiesTx cfg.technologyPatterns jrecs grecs g3
  createComponentRelationshipsTx cfg.componentMapping g4

/-! ## Hierarchical retention filter and fetch composition
(`_filter_closed_with_open_deps`, `_fetch_jira_issues`) -/

/-- `_filter_closed_with_open_deps`: with the
`processing.include_closed_with_open_deps` flag off, drop everything;
otherwise keep exactly the closed issues whose key occurs as a substring
of the *description* of at least one open issue. -/
def filterClosedWithOpenDeps (includeClosedWithOpenDeps : Bool)
    (closedIssues openIssues : List JiraIssueData) : List JiraIssueData :=
  if !includeClosedWithOpenDeps then []
  else
    closedIssues.filter
      (fun c => openIssues.any (fun o => pyIn c.key o.description))

/-- The issue list assembled by `_fetch_jira_issues`: all open issues plus
the retained closed issues.  Only this list reaches `_load_to_neo4j`. -/
def fetchJiraIssuesResult (includeClosedWithOpenDeps : Bool)
    (openIssues recentClosed : List JiraIssueData) : List JiraIssueData :=
  openIssues ++
    filterClosedWithOpenDeps includeClosedWithOpenDeps recentClosed openIssues

/-! ## Batch control flow of the loaders (error containment) -/

/-- One loop of `_load_to_neo4j` (`jira_github_etl.py`): there is no
`try`/`except` around `session.execute_write`, so the first failing
record raises out of the loop.  Returns the keys actually upserted and
whether the loop aborted; `w` tells which records' writes succeed. -/
def runJGBatch {α κ : Type} (w : α → Bool) (key : α → κ) :
    List α → List κ × Bool
  | [] => ([], false)
  | r :: rs =>
    if w r then
      let (ks, ab) := runJGBatch w key rs
      (key r :: ks, ab)
    else ([], true)

/-- `_load_to_neo4j` of `jira_github_etl.py`, batch control flow only:
JIRA records first, then GitHub records; an exception in either loop
propagates immediately (aborting everything that follows). -/
def loadToNeo4jJG (wj : JiraIssueData → Bool) (wg : GitHubIssueData → Bool)
    (jrecs : List JiraIssueData) (grecs : List GitHubIssueData) :
    List String × List (String × Nat) × Bool :=
  let (jk, jab) := runJGBatch wj (fun i => i.key) jrecs
  if jab then (jk, [], true)
  else
    let (gk, gab) :=
      runJGBatch wg (fun i => (i.repository, i.number)) grecs
    (jk, gk, gab)

/-- A transformed record of `jira_etl.py` as seen by `load_to_neo4j`:
only the identity key matters to the control flow (a record lacking it
makes `session.run` fail on the missing `$key` parameter, and then the
`except` handler's log line `issue['key']` itself raises `KeyError`). -/
structure JiraRecord where
  key : Option String
  deriving DecidableEq, Repr

/-- `JiraETL.load_to_neo4j`: per-record `try`/`except` around
`session.run`.  Returns the log of (key, loaded-successfully) entries
and whether the loop aborted with an escaping exception; `w` tells which
records' Cypher writes succeed. -/
def loadToNeo4jJE (w : JiraRecord → Bool) :
    List JiraRecord → List (String × Bool) × Bool
  | [] => ([], false)
  | r :: rs =>
    match r.key with
    | some k =>
      let rest := loadToNeo4jJE w rs
      ((k, w r) :: rest.1, rest.2)
    | none => ([], true)

/-! ## Paginated fetch loops -/

/-- Observable events of a paginated fetch loop. -/
inductive FetchEvent (α : Type) where
  | request (startAt : Nat) (page : List α)
  | sleep (delay : Nat)
  deriving DecidableEq, Repr

/-- `_fetch_jira_batch` (`jira_github_etl.py`): request pages of
`batch_size` starting at offset 0; stop on an empty page before
appending, otherwise append, sleep `rate_limit_delay`, and stop if the
page was short.  `pages o` is the upstream's answer for `startAt = o`;
`fuel` bounds the recursion (the loop itself is `while True`). -/
def fetchJiraBatch {α : Type} (pages : Nat → List α) (batchSize delay : Nat) :
    Nat → Nat → List α × List (FetchEvent α)
  | _, 0 => ([], [])
  | startAt, fuel + 1 =>
    let batch := pages startAt
    if batch.isEmpty then ([], [.request startAt batch])
    else if batch.length < batchSize then
      (batch, [.request startAt batch, .sleep delay])
    else
      let r := fetchJiraBatch pages batchSize delay (startAt + batchSize) fuel
      (batch ++ r.1, .request startAt batch :: .sleep delay :: r.2)

/-- One project's pagination loop inside `JiraETL.run_etl`
(`jira_etl.py`): request pages of `max_results`, load each page, stop on
an empty or short page.  There is no sleep anywhere in this loop. -/
def runEtlProjectPages {α : Type} (pages : Nat → List α) (maxResults : Nat) :
    Nat → Nat → List α × List (FetchEvent α)
  | _, 0 => ([], [])
  | startAt, fuel + 1 =>
    let issues := pages startAt
    if issues.isEmpty then ([], [.request startAt issues])
    else if issues.length < maxResults then
      (issues, [.request startAt issues])
    else
      let r := runEtlProjectPages pages maxResults (startAt + maxResults) fuel
      (issues ++ r.1, .request startAt issues :: r.2)

/-- No sleep separates `e₁` from an immediately following request. -/
def FetchEvent.isRequest {α : Type} : FetchEvent α → Bool
  | .request _ _ => true
  | .sleep _ => false

/-! ## GitHub fetch bounds (`_fetch_github_repo_issues`,
`_fetch_github_org_sample`) -/

/-- The collection loop of `_fetch_github_repo_issues`: walk the issue
stream, skip issues carrying an excluded label, append the rest, and
break as soon as the accumulated list has reached `batch_size`. -/
def collectRepoIssues {α : Type} (batchSize : Nat) (excluded : α → Bool) :
    List α → List α → List α
  | acc, [] => acc
  | acc, i :: rest =>
    if excluded i then collectRepoIssues batchSize excluded acc rest
    else
      let acc' := acc ++ [i]
      if batchSize ≤ acc'.length then acc'
      else collectRepoIssues batchSize excluded acc' rest

def fetchGithubRepoIssues {α : Type} (batchSize : Nat) (excluded : α → Bool)
    (stream : List α) : List α :=
  collectRepoIssues batchSize excluded [] stream

/-- One repository of an organization as seen by
`_fetch_github_org_sample`: the issues its `_fetch_github_repo_issues`
call would return, or a raised exception (`fails`). -/
structure RepoFetch (α : Type) where
  fails : Bool
  issues : List α
  deriving DecidableEq, Repr

/-- `_fetch_github_org_sample`: stop once `max_repos` repositories have
contributed, skip failing repositories (without counting them), and take
at most 10 issues from each contributing repository. -/
def fetchGithubOrgSample {α : Type} (maxRepos : Nat) :
    List (RepoFetch α) → Nat → List α
  | [], _ => []
  | r :: rest, repoCount =>
    if maxRepos ≤ repoCount then []
    else if r.fails then fetchGithubOrgSample maxRepos rest repoCount
    else r.issues.take 10 ++ fetchGithubOrgSample maxRepos rest (repoCount + 1)

/-! ## Retry/backoff policy

The two third-party decorators are external collaborators; they are
modelled from their documented contracts, instantiated with exactly the
arguments appearing in the source:

* `tenacity`: `@retry(stop=stop_after_attempt(3),
  wait=wait_exponential(multiplier=1, min=4, max=10))`
  (`jira_etl.py`, `github_etl.py`, `cross_ref_etl.py`), where the delay
  slept after failed attempt `n` is `max(min, min(multiplier * 2^n, max))`.
* `retrying`: `@retry(stop_max_attempt_number=3,
  wait_exponential_multiplier=1000)` (`jira_github_etl.py`), where the
  delay after failed attempt `n` is `min(1000 * 2^n, wait_exponential_max)`
  milliseconds. -/

/-- `tenacity.wait_exponential(multiplier, min, max)` after failed
attempt `n` (1-based). -/
def tenacityWaitExp (multiplier mn mx n : Nat) : Nat :=
  max mn (min (multiplier * 2 ^ n) mx)

/-- `retrying`'s exponential sleep (in milliseconds) after failed attempt
`n` (1-based). -/
def retryingWaitExp (multiplierMs maxMs n : Nat) : Nat :=
  min (multiplierMs * 2 ^ n) maxMs

/-- Retry loop: attempt `n`, and while attempts remain, sleep `wait n`
after a failure and try again; the final attempt's failure is returned
to the caller.  Yields (result, delays slept, attempts made). -/
def retryCallAux {ε α : Type} (wait : Nat → Nat) (attempt : Nat → Except ε α) :
    Nat → Nat → Except ε α × List Nat × Nat
  | n, 0 => (attempt n, [], 1)
  | n, rem + 1 =>
    match attempt n with
    | .ok a => (.ok a, [], 1)
    | .error _ =>
      let r := retryCallAux wait attempt (n + 1) rem
      (r.1, wait n :: r.2.1, r.2.2 + 1)

/-- A fallible operation wrapped with an attempt ceiling of
`maxAttempts` and backoff schedule `wait`.  `attempt n` is the outcome
of the `n`-th call of the wrapped operation. -/
def retryCall {ε α : Type} (maxAttempts : Nat) (wait : Nat → Nat)
    (attempt : Nat → Except ε α) : Except ε α × List Nat × Nat :=
  retryCallAux wait attempt 1 (maxAttempts - 1)

/-! ## Closed forms of the load stages

Every graph write of `_load_to_neo4j` past the node upserts is an
ensure-if-absent of a technology node, a component node, or an edge.
`SyncOp` is that insert language; each stage is proved equal to its node
upserts plus a list of `SyncOp`s computed from the (upsert-stage) node
lists.  This is the backbone of the idempotence proof. -/

inductive SyncOp where
  | tech (name : String)
  | comp (name : String)
  | edge (e : JGEdge)
  deriving DecidableEq, Repr

/-- The ensure-only part of the graph state. -/
structure OpState where
  technologies : List String
  components : List String
  edges : List JGEdge
  deriving DecidableEq, Repr

def applyOp (s : OpState) : SyncOp → OpState
  | .tech n => { s with technologies := ensureMem n s.technologies }
  | .comp n => { s with components := ensureMem n s.components }
  | .edge e => { s with edges := ensureMem e s.edges }

def applyOps (s : OpState) (ops : List SyncOp) : OpState := ops.foldl applyOp s

/-- Has the element ensured by `op` already been ensured in `s`? -/
def opDone (s : OpState) : SyncOp → Bool
  | .tech n => s.technologies.contains n
  | .comp n => s.components.contains n
  | .edge e => s.edges.contains e

theorem applyOp_of_opDone {s : OpState} {op : SyncOp} (h : opDone s op) :
    applyOp s op = s := by
  cases op with
  | tech n =>
    show ({ s with technologies := ensureMem n s.technologies } : OpState) = s
    rw [ensureMem_of_mem (List.mem_of_elem_eq_true h)]
  | comp n =>
    show ({ s with components := ensureMem n s.components } : OpState) = s
    rw [ensureMem_of_mem (List.mem_of_elem_eq_true h)]
  | edge e =>
    show ({ s with edges := ensureMem e s.edges } : OpState) = s
    rw [ensureMem_of_mem (List.mem_of_elem_eq_true h)]

theorem opDone_applyOp_self (s : OpState) (op : SyncOp) :
    opDone (applyOp s op) op := by
  cases op with
  | tech n => exact List.elem_eq_true_of_mem (mem_ensureMem_self n s.technologies)
  | comp n => exact List.elem_eq_true_of_mem (mem_ensureMem_self n s.components)
  | edge e => exact List.elem_eq_true_of_mem (mem_ensureMem_self e s.edges)

theorem opDone_applyOp_mono {s : OpState} {op : SyncOp} (op' : SyncOp)
    (h : opDone s op) : opDone (applyOp s op') op := by
  cases op <;> cases op' <;>
    first
      | exact h
      | exact List.elem_eq_true_of_mem
          (mem_ensureMem_of_mem _ (List.mem_of_elem_eq_true h))

theorem opDone_applyOps_mono {s : OpState} {op : SyncOp} (ops : List SyncOp)
    (h : opDone s op) : opDone (applyOps s ops) op := by
  induction ops generalizing s with
  | nil => exact h
  | cons o os ih => exact ih (opDone_applyOp_mono o h)

theorem opDone_applyOps_of_mem {s : OpState} {op : SyncOp} {ops : List SyncOp}
    (h : op ∈ ops) : opDone (applyOps s ops) op := by
  induction ops generalizing s with
  | nil => cases h
  | cons o os ih =>
    rcases List.mem_cons.mp h with rfl | h
    · exact opDone_applyOps_mono os (opDone_applyOp_self s op)
    · exact ih h

theorem applyOps_of_forall_opDone {s : OpState} {ops : List SyncOp}
    (h : ∀ op ∈ ops, opDone s op) : applyOps s ops = s := by
  induction ops with
  | nil => rfl
  | cons o os ih =>
    show applyOps (applyOp s o) os = s
    rw [applyOp_of_opDone (h o (by simp))]
    exact ih fun op hop => h op (by simp [hop])

/-- Replaying the same insert sequence on its own result changes nothing. -/
theorem applyOps_absorb (s : OpState) (ops : List SyncOp) :
    applyOps (applyOps s ops) ops = applyOps s ops :=
  applyOps_of_forall_opDone fun _ h => opDone_applyOps_of_mem h

theorem applyOps_append (s : OpState) (a b : List SyncOp) :
    applyOps s (a ++ b) = applyOps (applyOps s a) b :=
  List.foldl_append ..

theorem applyOps_edges_map (s : OpState) (es : List JGEdge) :
    applyOps s (es.map SyncOp.edge) =
      { s with edges := foldEnsure s.edges es } := by
  induction es generalizing s with
  | nil => rfl
  | cons e es ih => exact (ih _).trans rfl

def JGGraph.opState (g : JGGraph) : OpState :=
  ⟨g.technologies, g.components, g.edges⟩

def JGGraph.withOpState (g : JGGraph) (s : OpState) : JGGraph :=
  { g with technologies := s.technologies, components := s.components,
           edges := s.edges }

@[simp] theorem withOpState_opState (g : JGGraph) :
    g.withOpState g.opState = g := rfl

@[simp] theorem opState_withOpState (g : JGGraph) (s : OpState) :
    (g.withOpState s).opState = s := rfl

@[simp] theorem withOpState_withOpState (g : JGGraph) (s t : OpState) :
    (g.withOpState s).withOpState t = g.withOpState t := rfl

@[simp] theorem withOpState_jiraIssues (g : JGGraph) (s : OpState) :
    (g.withOpState s).jiraIssues = g.jiraIssues := rfl

@[simp] theorem withOpState_githubIssues (g : JGGraph) (s : OpState) :
    (g.withOpState s).githubIssues = g.githubIssues := rfl

@[simp] theorem withOpState_repositories (g : JGGraph) (s : OpState) :
    (g.withOpState s).repositories = g.repositories := rfl

/-- Generic closed form of a fold whose every step only ensures
technologies, components, and edges; the ensured elements may be
computed from the graph's node lists (which such steps never change). -/
theorem foldl_withOpState {β : Type} (step : JGGraph → β → JGGraph)
    (opsFor : JGGraph → β → List SyncOp)
    (hstep : ∀ g x, step g x = g.withOpState (applyOps g.opState (opsFor g x)))
    (hops : ∀ g s x, opsFor (g.withOpState s) x = opsFor g x)
    (l : List β) (g : JGGraph) :
    l.foldl step g =
      g.withOpState (applyOps g.opState (l.flatMap (opsFor g))) := by
  induction l generalizing g with
  | nil => rfl
  | cons x l ih =>
    show l.foldl step (step g x) = _
    rw [ih, hstep]
    simp only [opState_withOpState, withOpState_withOpState]
    have hfl : l.flatMap (opsFor (g.withOpState (applyOps g.opState (opsFor g x))))
        = l.flatMap (opsFor g) := by
      congr 1
      funext y
      exact hops g _ y
    rw [hfl, List.flatMap_cons, applyOps_append]

/-! ### Closed forms of the two upsert stages -/

def jiraBelongsEdge (i : JiraIssueData) : JGEdge :=
  ⟨.jira i.key, "BELONGS_TO", .project i.project⟩

def githubBelongsEdge (i : GitHubIssueData) : JGEdge :=
  ⟨.github i.repository i.number, "BELONGS_TO", .repo i.repository⟩

def githubOwnedEdge (i : GitHubIssueData) : JGEdge :=
  ⟨.repo i.repository, "OWNED_BY", .org i.organization⟩

theorem jiraUpserts_closed (now : Nat) (jrecs : List JiraIssueData)
    (g : JGGraph) :
    jrecs.foldl (fun g i => createJiraIssueTx now i g) g =
      { g with
        jiraIssues :=
          upsertFold (fun i => i.key) (jiraNodeProps now) jrecs g.jiraIssues
        jiraProjects :=
          upsertFold (fun i => i.project)
            (fun i => projectDisplayName i.project) jrecs g.jiraProjects
        edges := foldEnsure g.edges (jrecs.map jiraBelongsEdge) } := by
  induction jrecs generalizing g with
  | nil => rfl
  | cons i rest ih =>
    show List.foldl _ (createJiraIssueTx now i g) rest = _
    exact (ih (createJiraIssueTx now i g)).trans rfl

theorem githubUpserts_closed (cats : List (String × List String)) (now : Nat)
    (grecs : List GitHubIssueData) (g : JGGraph) :
    grecs.foldl (fun g i => createGitHubIssueTx cats now i g) g =
      { g with
        githubIssues :=
          upsertFold (fun i => (i.repository, i.number)) (githubNodeProps now)
            grecs g.githubIssues
        repositories :=
          upsertFold (fun i => i.repository)
            (fun i =>
              ⟨repoShortName i.repository, i.organization,
                getRepoCategory cats i.repository⟩) grecs g.repositories
        organizations :=
          foldEnsure g.organizations (grecs.map (fun i => i.organization))
        edges :=
          foldEnsure g.edges
            (grecs.flatMap (fun i => [githubBelongsEdge i, githubOwnedEdge i])) } := by
  induction grecs generalizing g with
  | nil => rfl
  | cons i rest ih =>
    show List.foldl _ (createGitHubIssueTx cats now i g) rest = _
    rw [ih (createGitHubIssueTx cats now i g)]
    simp only [List.flatMap_cons, foldEnsure_append]
    rfl

/-! ### Closed form of the cross-reference stage -/

/-- The (key, search text) projection of a GitHub issue node consumed by
`_create_cross_references`. -/
def ghTextProj (gp : (String × Nat) × GithubNodeProps) : (String × Nat) × String :=
  (gp.1, gp.2.body ++ " " ++ gp.2.title)

/-- `jgCrossRefCands` expressed over the projected node data. -/
def jgCrossRefCandsP (m : JGMatcher) (ghs : List ((String × Nat) × String))
    (jkeys : List String) : List JGEdge :=
  ghs.flatMap (fun gp =>
    (m gp.2).flatMap (fun ref =>
      if ref ∈ jkeys then
        [⟨.github gp.1.1 gp.1.2, "ADDRESSES", .jira ref⟩,
         ⟨.jira ref, "TRACKED_IN", .github gp.1.1 gp.1.2⟩]
      else []))

theorem jgCrossRefCands_eq (m : JGMatcher) (g : JGGraph) :
    jgCrossRefCands m g =
      jgCrossRefCandsP m (g.githubIssues.map ghTextProj)
        (g.jiraIssues.map Prod.fst) := by
  unfold jgCrossRefCands jgCrossRefCandsP
  rw [List.flatMap_map]
  rfl

def crossRefOps (pats : List JGMatcher) (ghs : List ((String × Nat) × String))
    (jkeys : List String) : List SyncOp :=
  pats.flatMap (fun m => (jgCrossRefCandsP m ghs jkeys).map SyncOp.edge)

theorem createCrossReferences_closed (pats : List JGMatcher) (g : JGGraph) :
    createCrossReferencesTx pats g =
      g.withOpState (applyOps g.opState
        (crossRefOps pats (g.githubIssues.map ghTextProj)
          (g.jiraIssues.map Prod.fst))) := by
  unfold createCrossReferencesTx crossRefOps
  rw [foldl_withOpState _ (fun g m => (jgCrossRefCands m g).map SyncOp.edge)]
  · congr 2
    congr 1
    funext m
    rw [jgCrossRefCands_eq]
  · intro g m
    rw [applyOps_edges_map]
    rfl
  · intro g s m
    rfl

/-! ### Closed form of the technology stage -/

/-- The inserts performed by one `_create_technology_link` call, given the
key sets of the graph. -/
def techLinkOps (jkeys : List String) (gkeys : List (String × Nat))
    (t : JGRef) (w : String) : List SyncOp :=
  match t with
  | .jira k =>
    if k ∈ jkeys then
      [.tech w.toLower, .edge ⟨t, "INVOLVES", .tech w.toLower⟩]
    else []
  | .github r n =>
    if (r, n) ∈ gkeys then
      [.tech w.toLower, .edge ⟨t, "INVOLVES", .tech w.toLower⟩]
    else []
  | _ => []

theorem techLinkTx_closed (t : JGRef) (w : String) (g : JGGraph) :
    createTechnologyLinkTx t w g =
      g.withOpState (applyOps g.opState
        (techLinkOps (g.jiraIssues.map Prod.fst) (g.githubIssues.map Prod.fst)
          t w)) := by
  cases t with
  | jira k =>
    by_cases h : k ∈ g.jiraIssues.map Prod.fst
    · simp only [createTechnologyLinkTx, techLinkOps, if_pos h]; rfl
    · simp only [createTechnologyLinkTx, techLinkOps, if_neg h]; rfl
  | github r n =>
    by_cases h : (r, n) ∈ g.githubIssues.map Prod.fst
    · simp only [createTechnologyLinkTx, techLinkOps, if_pos h]; rfl
    · simp only [createTechnologyLinkTx, techLinkOps, if_neg h]; rfl
  | project k => rfl
  | repo n => rfl
  | org n => rfl
  | tech n => rfl
  | comp n => rfl

theorem techLinkFold_closed (t : JGRef) (ws : List String) (g : JGGraph) :
    ws.foldl (fun g w => createTechnologyLinkTx t w g) g =
      g.withOpState (applyOps g.opState
        (ws.flatMap (techLinkOps (g.jiraIssues.map Prod.fst)
          (g.githubIssues.map Prod.fst) t))) := by
  refine foldl_withOpState _
    (fun g w =>
      techLinkOps (g.jiraIssues.map Prod.fst) (g.githubIssues.map Prod.fst) t w)
    (fun g w => techLinkTx_closed t w g) (fun g s w => ?_) ws g
  rfl

theorem techPatsFold_closed (pats : List JGMatcher) (text : String)
    (t : JGRef) (g : JGGraph) :
    pats.foldl (fun g m =>
        (m text).foldl (fun g w => createTechnologyLinkTx t w g) g) g =
      g.withOpState (applyOps g.opState
        (pats.flatMap (fun m =>
          (m text).flatMap (techLinkOps (g.jiraIssues.map Prod.fst)
            (g.githubIssues.map Prod.fst) t)))) := by
  refine foldl_withOpState _
    (fun g m =>
      (m text).flatMap (techLinkOps (g.jiraIssues.map Prod.fst)
        (g.githubIssues.map Prod.fst) t))
    (fun g m => techLinkFold_closed t (m text) g) (fun g s m => ?_) pats g
  rfl

/-- All inserts of `_extract_technologies`, given fixed key sets. -/
def techOps (jkeys : List String) (gkeys : List (String × Nat))
    (pats : List JGMatcher) (jrecs : List JiraIssueData)
    (grecs : List GitHubIssueData) : List SyncOp :=
  jrecs.flatMap (fun i => pats.flatMap (fun m =>
    (m ((i.summary ++ " " ++ i.description).toLower)).flatMap
      (techLinkOps jkeys gkeys (.jira i.key))))
  ++ grecs.flatMap (fun i => pats.flatMap (fun m =>
    (m ((i.title ++ " " ++ i.body).toLower)).flatMap
      (techLinkOps jkeys gkeys (.github i.repository i.number))))

theorem extractTechnologies_closed (pats : List JGMatcher)
    (jrecs : List JiraIssueData) (grecs : List GitHubIssueData) (g : JGGraph) :
    extractTechnologiesTx pats jrecs grecs g =
      g.withOpState (applyOps g.opState
        (techOps (g.jiraIssues.map Prod.fst) (g.githubIssues.map Prod.fst)
          pats jrecs grecs)) := by
  have hj := foldl_withOpState _
    (fun (g : JGGraph) (i : JiraIssueData) => pats.flatMap (fun m =>
      (m ((i.summary ++ " " ++ i.description).toLower)).flatMap
        (techLinkOps (g.jiraIssues.map Prod.fst) (g.githubIssues.map Prod.fst)
          (.jira i.key))))
    (fun g i => techPatsFold_closed pats _ _ g) (fun _ _ _ => rfl) jrecs g
  have hgf := fun (g' : JGGraph) => foldl_withOpState _
    (fun (g : JGGraph) (i : GitHubIssueData) => pats.flatMap (fun m =>
      (m ((i.title ++ " " ++ i.body).toLower)).flatMap
        (techLinkOps (g.jiraIssues.map Prod.fst) (g.githubIssues.map Prod.fst)
          (.github i.repository i.number))))
    (fun g i => techPatsFold_closed pats _ _ g) (fun _ _ _ => rfl) grecs g'
  show List.foldl _ (List.foldl _ g jrecs) grecs = _
  rw [hj, hgf]
  simp only [opState_withOpState, withOpState_withOpState, withOpState_jiraIssues,
    withOpState_githubIssues]
  simp only [techOps, applyOps_append]

/-! ### Closed form of the component stage -/

/-- Projection of a JIRA issue node to the fields the component queries
consult: key, component set, summary, description. -/
def compJiraProj (jp : String × JiraNodeProps) :
    String × (List String × String × String) :=
  (jp.1, jp.2.components, jp.2.summary, jp.2.description)

/-- `compJiraCond` over the projected data. -/
def compJiraCondP (kw : String) (q : List String × String × String) : Bool :=
  q.1.any (fun c => pyIn kw c.toLower) || pyIn kw q.2.1.toLower ||
    pyIn kw q.2.2.toLower

/-- Projection of a repository node to (full name, short name). -/
def repoProj (rp : String × RepoNodeProps) : String × String :=
  (rp.1, rp.2.name)

/-- All inserts of one (component, keyword) pair of
`_create_component_relationships`. -/
def compKeywordOps (c kw : String)
    (jqs : List (String × (List String × String × String)))
    (rqs : List (String × String)) : List SyncOp :=
  jqs.flatMap (fun q =>
    if compJiraCondP kw q.2 then
      [.comp c, .edge ⟨.jira q.1, "AFFECTS", .comp c⟩]
    else [])
  ++ rqs.flatMap (fun q =>
    if pyIn kw q.2.toLower || pyIn kw q.1.toLower then
      [.comp c, .edge ⟨.repo q.1, "IMPLEMENTS", .comp c⟩]
    else [])

def compOps (mapping : List (String × List String))
    (jqs : List (String × (List String × String × String)))
    (rqs : List (String × String)) : List SyncOp :=
  mapping.flatMap (fun p =>
    p.2.flatMap (fun keyword => compKeywordOps p.1 keyword.toLower jqs rqs))

theorem compKeywordFold_closed (c keyword : String) (g : JGGraph) :
    g.repositories.foldl (fun (acc : JGGraph) rp =>
      if compRepoCond keyword.toLower rp.1 rp.2 then
        { acc with
          components := ensureMem c acc.components
          edges := ensureMem ⟨.repo rp.1, "IMPLEMENTS", .comp c⟩ acc.edges }
      else acc)
      (g.jiraIssues.foldl (fun (acc : JGGraph) jp =>
        if compJiraCond keyword.toLower jp.2 then
          { acc with
            components := ensureMem c acc.components
            edges := ensureMem ⟨.jira jp.1, "AFFECTS", .comp c⟩ acc.edges }
        else acc) g) =
    g.withOpState (applyOps g.opState
      (compKeywordOps c keyword.toLower (g.jiraIssues.map compJiraProj)
        (g.repositories.map repoProj))) := by
  have hj := foldl_withOpState
    (fun (acc : JGGraph) jp =>
      if compJiraCond keyword.toLower jp.2 then
        { acc with
          components := ensureMem c acc.components
          edges := ensureMem ⟨.jira jp.1, "AFFECTS", .comp c⟩ acc.edges }
      else acc)
    (fun (_ : JGGraph) (jp : String × JiraNodeProps) =>
      if compJiraCond keyword.toLower jp.2 then
        [.comp c, .edge ⟨.jira jp.1, "AFFECTS", .comp c⟩]
      else [])
    (fun acc jp => by
      by_cases h : compJiraCond keyword.toLower jp.2
      · simp only [if_pos h]; rfl
      · simp only [if_neg h]; rfl)
    (fun _ _ _ => rfl) g.jiraIssues g
  have hr := fun (g' : JGGraph) => foldl_withOpState
    (fun (acc : JGGraph) rp =>
      if compRepoCond keyword.toLower rp.1 rp.2 then
        { acc with
          components := ensureMem c acc.components
          edges := ensureMem ⟨.repo rp.1, "IMPLEMENTS", .comp c⟩ acc.edges }
      else acc)
    (fun (_ : JGGraph) (rp : String × RepoNodeProps) =>
      if compRepoCond keyword.toLower rp.1 rp.2 then
        [.comp c, .edge ⟨.repo rp.1, "IMPLEMENTS", .comp c⟩]
      else [])
    (fun acc rp => by
      by_cases h : compRepoCond keyword.toLower rp.1 rp.2
      · simp only [if_pos h]; rfl
      · simp only [if_neg h]; rfl)
    (fun _ _ _ => rfl) g.repositories g'
  rw [hj, hr]
  simp only [opState_withOpState, withOpState_withOpState]
  simp only [compKeywordOps, List.flatMap_map]
  rw [applyOps_append]
  rfl

set_option maxHeartbeats 2000000 in
theorem compRels_closed (mapping : List (String × List String)) (g : JGGraph) :
    createComponentRelationshipsTx mapping g =
      g.withOpState (applyOps g.opState
        (compOps mapping (g.jiraIssues.map compJiraProj)
          (g.repositories.map repoProj))) := by
  unfold createComponentRelationshipsTx compOps
  refine foldl_withOpState _
    (fun g p => p.2.flatMap (fun keyword =>
      compKeywordOps p.1 keyword.toLower (g.jiraIssues.map compJiraProj)
        (g.repositories.map repoProj)))
    (fun g p => ?_) (fun g s p => ?_) mapping g
  · refine foldl_withOpState _
      (fun g keyword =>
        compKeywordOps p.1 keyword.toLower (g.jiraIssues.map compJiraProj)
          (g.repositories.map repoProj))
      (fun g keyword => compKeywordFold_closed p.1 keyword g)
      (fun g s keyword => ?_) p.2 g
    rfl
  · rfl

/-! ### Closed form of the whole load stage -/

/-- Every ensure-style insert of one `_load_to_neo4j` pass, in execution
order, given the post-upsert node lists `jl`, `gl`, `rl`. -/
def syncOps (cfg : JGConfig) (jrecs : List JiraIssueData)
    (grecs : List GitHubIssueData) (jl : List (String × JiraNodeProps))
    (gl : List ((String × Nat) × GithubNodeProps))
    (rl : List (String × RepoNodeProps)) : List SyncOp :=
  (jrecs.map jiraBelongsEdge).map SyncOp.edge
  ++ (grecs.flatMap (fun i => [githubBelongsEdge i, githubOwnedEdge i])).map
      SyncOp.edge
  ++ crossRefOps cfg.jiraReferencePatterns (gl.map ghTextProj) (jl.map Prod.fst)
  ++ techOps (jl.map Prod.fst) (gl.map Prod.fst) cfg.technologyPatterns
      jrecs grecs
  ++ compOps cfg.componentMapping (jl.map compJiraProj) (rl.map repoProj)

/-- Closed form of `fullSyncLoad`: upsert results for the node lists, and
one insert sequence applied to the ensure-only part of the state. -/
def fullSyncLoadClosed (cfg : JGConfig) (now : Nat)
    (jrecs : List JiraIssueData) (grecs : List GitHubIssueData)
    (g : JGGraph) : JGGraph :=
  let jl := upsertFold (fun i => i.key) (jiraNodeProps now) jrecs g.jiraIssues
  let gl := upsertFold (fun i => (i.repository, i.number)) (githubNodeProps now)
    grecs g.githubIssues
  let rl := upsertFold (fun i => i.repository)
    (fun i => ⟨repoShortName i.repository, i.organization,
      getRepoCategory cfg.repositories i.repository⟩) grecs g.repositories
  let s := applyOps g.opState (syncOps cfg jrecs grecs jl gl rl)
  { jiraIssues := jl
    jiraProjects := upsertFold (fun i => i.project)
      (fun i => projectDisplayName i.project) jrecs g.jiraProjects
    githubIssues := gl
    repositories := rl
    organizations := foldEnsure g.organizations (grecs.map (fun i => i.organization))
    technologies := s.technologies
    components := s.components
    edges := s.edges }

@[simp] theorem OpState.eta (s : OpState) :
    (⟨s.technologies, s.components, s.edges⟩ : OpState) = s := rfl

set_option maxHeartbeats 2000000 in
theorem fullSyncLoad_eq_closed (cfg : JGConfig) (now : Nat)
    (jrecs : List JiraIssueData) (grecs : List GitHubIssueData) (g : JGGraph) :
    fullSyncLoad cfg now jrecs grecs g =
      fullSyncLoadClosed cfg now jrecs grecs g := by
  show createComponentRelationshipsTx cfg.componentMapping
    (extractTechnologiesTx cfg.technologyPatterns jrecs grecs
      (createCrossReferencesTx cfg.jiraReferencePatterns
        (grecs.foldl (fun g i => createGitHubIssueTx cfg.repositories now i g)
          (jrecs.foldl (fun g i => createJiraIssueTx now i g) g)))) = _
  rw [jiraUpserts_closed, githubUpserts_closed, createCrossReferences_closed,
    extractTechnologies_closed, compRels_closed]
  simp only [opState_withOpState, withOpState_withOpState,
    withOpState_jiraIssues, withOpState_githubIssues, withOpState_repositories]
  simp only [fullSyncLoadClosed, syncOps, applyOps_append, applyOps_edges_map]
  rfl

/-! ### The insert sequence does not depend on the sync timestamp -/

theorem ghText_upsertFold (t : Nat) (grecs : List GitHubIssueData)
    (l : List ((String × Nat) × GithubNodeProps)) :
    (upsertFold (fun i => (i.repository, i.number)) (githubNodeProps t)
        grecs l).map ghTextProj =
      upsertFold (fun i => (i.repository, i.number))
        (fun i => i.body ++ " " ++ i.title) grecs (l.map ghTextProj) := by
  have h := upsertFold_map_snd
    (fun (i : GitHubIssueData) => (i.repository, i.number)) (githubNodeProps t)
    (fun q : GithubNodeProps => q.body ++ " " ++ q.title) grecs l
  exact h

theorem compProj_upsertFold (t : Nat) (jrecs : List JiraIssueData)
    (l : List (String × JiraNodeProps)) :
    (upsertFold (fun i => i.key) (jiraNodeProps t) jrecs l).map compJiraProj =
      upsertFold (fun i => i.key)
        (fun i => (i.components, i.summary, i.description)) jrecs
        (l.map compJiraProj) := by
  have h := upsertFold_map_snd (fun (i : JiraIssueData) => i.key)
    (jiraNodeProps t)
    (fun q : JiraNodeProps => (q.components, q.summary, q.description)) jrecs l
  exact h

theorem syncOps_invariant (cfg : JGConfig) (jrecs : List JiraIssueData)
    (grecs : List GitHubIssueData) (t₁ t₂ : Nat)
    (jl : List (String × JiraNodeProps))
    (gl : List ((String × Nat) × GithubNodeProps))
    (rl : List (String × RepoNodeProps)) :
    syncOps cfg jrecs grecs
      (upsertFold (fun i => i.key) (jiraNodeProps t₂) jrecs jl)
      (upsertFold (fun i => (i.repository, i.number)) (githubNodeProps t₂)
        grecs gl) rl =
    syncOps cfg jrecs grecs
      (upsertFold (fun i => i.key) (jiraNodeProps t₁) jrecs jl)
      (upsertFold (fun i => (i.repository, i.number)) (githubNodeProps t₁)
        grecs gl) rl := by
  unfold syncOps
  simp only [ghText_upsertFold, compProj_upsertFold, upsertFold_map_fst]

/-! ### Idempotence of the load stage -/

set_option maxHeartbeats 2000000 in
theorem fullSyncLoadClosed_idem (cfg : JGConfig) (t₁ t₂ : Nat)
    (jrecs : List JiraIssueData) (grecs : List GitHubIssueData) (g : JGGraph) :
    fullSyncLoadClosed cfg t₂ jrecs grecs
        (fullSyncLoadClosed cfg t₁ jrecs grecs g) =
      fullSyncLoadClosed cfg t₂ jrecs grecs g := by
  simp only [fullSyncLoadClosed, JGGraph.opState, OpState.eta]
  rw [upsertFold_upsertFold (fun (i : JiraIssueData) => i.key)
      (jiraNodeProps t₁) (jiraNodeProps t₂) jrecs g.jiraIssues,
    upsertFold_upsertFold (fun (i : JiraIssueData) => i.project)
      (fun i => projectDisplayName i.project) (fun i => projectDisplayName i.project)
      jrecs g.jiraProjects,
    upsertFold_upsertFold (fun (i : GitHubIssueData) => (i.repository, i.number))
      (githubNodeProps t₁) (githubNodeProps t₂) grecs g.githubIssues,
    upsertFold_upsertFold (fun (i : GitHubIssueData) => i.repository)
      (fun i => (⟨repoShortName i.repository, i.organization,
        getRepoCategory cfg.repositories i.repository⟩ : RepoNodeProps))
      (fun i => (⟨repoShortName i.repository, i.organization,
        getRepoCategory cfg.repositories i.repository⟩ : RepoNodeProps))
      grecs g.repositories,
    foldEnsure_absorb g.organizations (grecs.map (fun i => i.organization)),
    syncOps_invariant cfg jrecs grecs t₁ t₂ g.jiraIssues g.githubIssues,
    applyOps_absorb]

theorem upsertFold_length (key : ρ → κ) (val : ρ → ν) (d : List ρ)
    (l : List (κ × ν)) [DecidableEq κ] :
    (upsertFold key val d l).length =
      (foldEnsure (l.map Prod.fst) (d.map key)).length := by
  rw [← upsertFold_map_fst key val d l, List.length_map]

/-- Node and edge counts of a single load do not depend on the sync
timestamp (the only property that differs between two passes over
identical upstream data). -/
theorem fullSyncLoadClosed_counts (cfg : JGConfig) (t₁ t₂ : Nat)
    (jrecs : List JiraIssueData) (grecs : List GitHubIssueData) (g : JGGraph) :
    (fullSyncLoadClosed cfg t₂ jrecs grecs g).nodeCount =
      (fullSyncLoadClosed cfg t₁ jrecs grecs g).nodeCount ∧
    (fullSyncLoadClosed cfg t₂ jrecs grecs g).edgeCount =
      (fullSyncLoadClosed cfg t₁ jrecs grecs g).edgeCount := by
  simp only [fullSyncLoadClosed, JGGraph.nodeCount, JGGraph.edgeCount]
  rw [syncOps_invariant cfg jrecs grecs t₁ t₂ g.jiraIssues g.githubIssues]
  constructor
  · simp only [upsertFold_length]
  · rfl

theorem ensureMem_absorb {α : Type} [DecidableEq α] (x : α) (l : List α) :
    ensureMem x (ensureMem x l) = ensureMem x l :=
  ensureMem_of_mem (mem_ensureMem_self x l)

theorem upsertList_absorb {κ ν : Type} [DecidableEq κ] (k : κ) (v : ν)
    (l : List (κ × ν)) :
    upsertList k v (upsertList k v l) = upsertList k v l :=
  upsertFold_upsertFold (fun _ : Unit => k) (fun _ => v) (fun _ => v) [()] l

theorem createJiraIssueTx_idem (now : Nat) (i : JiraIssueData) (g : JGGraph) :
    createJiraIssueTx now i (createJiraIssueTx now i g) =
      createJiraIssueTx now i g := by
  unfold createJiraIssueTx
  congr 1 <;>
    first
      | rfl
      | apply upsertList_absorb
      | apply ensureMem_absorb

theorem createCrossReferencesTx_idem (pats : List JGMatcher) (g : JGGraph) :
    createCrossReferencesTx pats (createCrossReferencesTx pats g) =
      createCrossReferencesTx pats g := by
  rw [createCrossReferences_closed pats g, createCrossReferences_closed]
  simp only [opState_withOpState, withOpState_withOpState,
    withOpState_jiraIssues, withOpState_githubIssues]
  rw [applyOps_absorb]

/-- Generic: an idempotent operation applied `n + 1` times equals one
application. -/
theorem iterate_idem {α : Type} (f : α → α) (hf : ∀ a, f (f a) = f a)
    (n : Nat) (a : α) : f^[n + 1] a = f a := by
  induction n with
  | zero => rfl
  | succ n ih => rw [Function.iterate_succ_apply', ih, hf]

/-! ## Data model of the discrete pipeline
(`jira_etl.py` + `github_etl.py` + `cross_ref_etl.py`)

The cross-reference ETL runs against the graph those two loaders
populate: `:Issue` nodes keyed by JIRA key, `:GitHubIssue` nodes keyed by
(repository, number), `:PullRequest` nodes keyed by (repository, number).
Node property sets mirror the fields the cross-reference queries consult
(with null text properties loaded as empty strings by the loaders). -/

structure IssueProps where
  summary : String
  description : String
  issueType : String
  labels : List String
  project : String
  deriving DecidableEq, Repr

structure GhIssueProps where
  title : String
  body : String
  deriving DecidableEq, Repr

structure PullRequestProps where
  title : String
  body : String
  deriving DecidableEq, Repr

inductive XRef where
  | issue (key : String)
  | github (repo : String) (number : Nat)
  | pull (repo : String) (number : Nat)
  | project (key : String)
  | tech (name : String)
  deriving DecidableEq, Repr

structure XEdge where
  src : XRef
  rel : String
  dst : XRef
  deriving DecidableEq, Repr

structure XGraph where
  issues : List (String × IssueProps)
  githubIssues : List ((String × Nat) × GhIssueProps)
  pullRequests : List ((String × Nat) × PullRequestProps)
  projects : List String
  technologies : List String
  edges : List XEdge
  deriving DecidableEq, Repr

/-- Does the graph contain a node for this reference? -/
def XGraph.hasRef (g : XGraph) : XRef → Bool
  | .issue k => k ∈ g.issues.map Prod.fst
  | .github r n => (r, n) ∈ g.githubIssues.map Prod.fst
  | .pull r n => (r, n) ∈ g.pullRequests.map Prod.fst
  | .project k => k ∈ g.projects
  | .tech n => n ∈ g.technologies

/-- A configured pattern of `cross_ref_etl.py`, as the opaque row list
`apoc.text.regexGroups(text, pattern)`: each row is the full match
followed by its capture groups. -/
abbrev XMatcher := String → List (List String)

/-- Rows of the GitHub-issue query of `create_jira_github_references`:
`match[0]` is the candidate JIRA key; a key with no matching `:Issue`
node contributes no row (the `MATCH (j:Issue {key: jiraKey})` simply
finds nothing). -/
def addressesCands (m : XMatcher) (g : XGraph) : List XEdge :=
  g.githubIssues.flatMap (fun gp =>
    (m (gp.2.title ++ " " ++ gp.2.body)).flatMap (fun row =>
      match row.head? with
      | some jiraKey =>
        if jiraKey ∈ g.issues.map Prod.fst then
          [⟨.github gp.1.1 gp.1.2, "ADDRESSES", .issue jiraKey⟩,
           ⟨.issue jiraKey, "TRACKED_IN", .github gp.1.1 gp.1.2⟩]
        else []
      | none => []))

/-- Rows of the pull-request query of `create_jira_github_references`. -/
def implementsCands (m : XMatcher) (g : XGraph) : List XEdge :=
  g.pullRequests.flatMap (fun pp =>
    (m (pp.2.title ++ " " ++ pp.2.body)).flatMap (fun row =>
      match row.head? with
      | some jiraKey =>
        if jiraKey ∈ g.issues.map Prod.fst then
          [⟨.pull pp.1.1 pp.1.2, "IMPLEMENTS", .issue jiraKey⟩,
           ⟨.issue jiraKey, "IMPLEMENTED_IN", .pull pp.1.1 pp.1.2⟩]
        else []
      | none => []))

/-- `create_jira_github_references`: per pattern, the GitHub-issue query
then the pull-request query, each `MERGE`-ing its rows' edge pairs. -/
def createJiraGithubReferencesTx (pats : List XMatcher) (g : XGraph) : XGraph :=
  pats.foldl (fun g m =>
    let g1 := { g with edges := foldEnsure g.edges (addressesCands m g) }
    { g1 with edges := foldEnsure g1.edges (implementsCands m g1) }) g

/-- Rows of `create_github_jira_references`: `match[1]` (the first capture
group) is the candidate GitHub issue number; `toInteger` of a non-numeric
string is null, dropping the row, and the `MATCH` on `{number: n}` binds
every GitHub issue node with that number, in any repository. -/
def referencesCands (m : XMatcher) (g : XGraph) : List XEdge :=
  g.issues.flatMap (fun jp =>
    (m (jp.2.description ++ " " ++ jp.2.summary)).flatMap (fun row =>
      match row.get? 1 with
      | some s =>
        match s.toNat? with
        | some n =>
          (g.githubIssues.filter (fun gp => gp.1.2 = n)).flatMap (fun gp =>
            [⟨.issue jp.1, "REFERENCES", .github gp.1.1 gp.1.2⟩,
             ⟨.github gp.1.1 gp.1.2, "REFERENCED_BY", .issue jp.1⟩])
        | none => []
      | none => []))

def createGithubJiraReferencesTx (pats : List XMatcher) (g : XGraph) : XGraph :=
  pats.foldl (fun g m =>
    { g with edges := foldEnsure g.edges (referencesCands m g) }) g

/-- Rows of the Epic→Story query of `create_hierarchy_relationships`. -/
def epicStoryCands (g : XGraph) : List XEdge :=
  g.issues.flatMap (fun ep =>
    if ep.2.issueType == "Epic" then
      g.issues.flatMap (fun sp =>
        if sp.2.issueType == "Story" &&
            (pyIn ep.1 sp.2.description || pyIn ep.1 sp.2.summary ||
              sp.2.labels.contains ep.1) then
          [⟨.issue sp.1, "CHILD_OF", .issue ep.1⟩,
           ⟨.issue ep.1, "PARENT_OF", .issue sp.1⟩]
        else [])
    else [])

/-- Rows of the Story→Task/Sub-task/Bug query. -/
def storyTaskCands (g : XGraph) : List XEdge :=
  g.issues.flatMap (fun sp =>
    if sp.2.issueType == "Story" then
      g.issues.flatMap (fun tp =>
        if (tp.2.issueType == "Task" || tp.2.issueType == "Sub-task" ||
              tp.2.issueType == "Bug") &&
            (pyIn sp.1 tp.2.description || pyIn sp.1 tp.2.summary ||
              tp.2.labels.contains sp.1) then
          [⟨.issue tp.1, "CHILD_OF", .issue sp.1⟩,
           ⟨.issue sp.1, "PARENT_OF", .issue tp.1⟩]
        else [])
    else [])

/-- `create_hierarchy_relationships`: Epic→Story pairs, then Story→Task
pairs, then `MERGE` of each issue's project node and `BELONGS_TO` edge. -/
def createHierarchyRelationshipsTx (g : XGraph) : XGraph :=
  let g1 := { g with edges := foldEnsure g.edges (epicStoryCands g) }
  let g2 := { g1 with edges := foldEnsure g1.edges (storyTaskCands g1) }
  g2.issues.foldl (fun (acc : XGraph) jp =>
    { acc with
      projects := ensureMem jp.2.project acc.projects
      edges :=
        ensureMem ⟨.issue jp.1, "BELONGS_TO", .project jp.2.project⟩ acc.edges })
    g2

/-! ### Closed forms of the cross-reference ETL stages -/

def XGraph.withEdges (g : XGraph) (E : List XEdge) : XGraph :=
  { g with edges := E }

@[simp] theorem withEdges_edges (g : XGraph) (E : List XEdge) :
    (g.withEdges E).edges = E := rfl

@[simp] theorem withEdges_withEdges (g : XGraph) (E F : List XEdge) :
    (g.withEdges E).withEdges F = g.withEdges F := rfl

@[simp] theorem withEdges_self (g : XGraph) : g.withEdges g.edges = g := rfl

/-- Closed form of a fold whose steps only `MERGE` edges computed from
the (unchanged) node lists. -/
theorem xfoldl_withEdges {β : Type} (step : XGraph → β → XGraph)
    (candsFor : XGraph → β → List XEdge)
    (hstep : ∀ g x, step g x = g.withEdges (foldEnsure g.edges (candsFor g x)))
    (hcands : ∀ g E x, candsFor (g.withEdges E) x = candsFor g x)
    (l : List β) (g : XGraph) :
    l.foldl step g =
      g.withEdges (foldEnsure g.edges (l.flatMap (candsFor g))) := by
  induction l generalizing g with
  | nil => rfl
  | cons x l ih =>
    show l.foldl step (step g x) = _
    rw [ih, hstep]
    simp only [withEdges_edges, withEdges_withEdges]
    have hfl : l.flatMap (candsFor (g.withEdges (foldEnsure g.edges (candsFor g x))))
        = l.flatMap (candsFor g) := by
      congr 1
      funext y
      exact hcands g _ y
    rw [hfl, List.flatMap_cons, foldEnsure_append]

theorem createJiraGithubReferences_closed (pats : List XMatcher) (g : XGraph) :
    createJiraGithubReferencesTx pats g =
      g.withEdges (foldEnsure g.edges
        (pats.flatMap (fun m => addressesCands m g ++ implementsCands m g))) := by
  unfold createJiraGithubReferencesTx
  exact xfoldl_withEdges _
    (fun g m => addressesCands m g ++ implementsCands m g)
    (fun g m => by
      show ({ g with
        edges :=
          (foldEnsure (foldEnsure g.edges (addressesCands m g))
            (implementsCands m
              { g with edges := foldEnsure g.edges (addressesCands m g) })) } :
        XGraph) = _
      rw [show implementsCands m
            { g with edges := foldEnsure g.edges (addressesCands m g) }
          = implementsCands m g from rfl, ← foldEnsure_append]
      rfl)
    (fun g E m => rfl) pats g

theorem createGithubJiraReferences_closed (pats : List XMatcher) (g : XGraph) :
    createGithubJiraReferencesTx pats g =
      g.withEdges (foldEnsure g.edges
        (pats.flatMap (fun m => referencesCands m g))) := by
  unfold createGithubJiraReferencesTx
  exact xfoldl_withEdges _ (fun g m => referencesCands m g)
    (fun g m => rfl) (fun g E m => rfl) pats g

def issueBelongsEdge (jp : String × IssueProps) : XEdge :=
  ⟨.issue jp.1, "BELONGS_TO", .project jp.2.project⟩

theorem xprojFold_closed (l : List (String × IssueProps)) (g : XGraph) :
    l.foldl (fun (acc : XGraph) jp =>
      { acc with
        projects := ensureMem jp.2.project acc.projects
        edges := ensureMem (issueBelongsEdge jp) acc.edges }) g =
    { g with
      projects := foldEnsure g.projects (l.map (fun jp => jp.2.project))
      edges := foldEnsure g.edges (l.map issueBelongsEdge) } := by
  induction l generalizing g with
  | nil => rfl
  | cons jp rest ih => exact (ih _).trans rfl

theorem createHierarchyRelationships_closed (g : XGraph) :
    createHierarchyRelationshipsTx g =
      { g with
        projects :=
          foldEnsure g.projects (g.issues.map (fun jp => jp.2.project))
        edges :=
          foldEnsure
            (foldEnsure (foldEnsure g.edges (epicStoryCands g))
              (storyTaskCands g))
            (g.issues.map issueBelongsEdge) } :=
  (xprojFold_closed g.issues
    { g with
      edges :=
        (foldEnsure (foldEnsure g.edges (epicStoryCands g))
          (storyTaskCands g)) }).trans rfl

/-! ### Referential consistency of the resolver candidates -/

theorem mem_pair {α : Type} {x a b : α} (h : x ∈ [a, b]) : x = a ∨ x = b := by
  simpa using h

/-- Both endpoints of the edge exist as nodes of the graph. -/
def xEndpointsOk (g : XGraph) (e : XEdge) : Prop :=
  g.hasRef e.src = true ∧ g.hasRef e.dst = true

theorem addressesCands_endpoints (m : XMatcher) (g : XGraph) :
    ∀ e ∈ addressesCands m g, xEndpointsOk g e := by
  intro e he
  simp only [addressesCands, List.mem_flatMap] at he
  obtain ⟨gp, hgp, row, _, he⟩ := he
  cases hr : row.head? with
  | none =>
    rw [hr] at he
    replace he : e ∈ ([] : List XEdge) := he
    cases he
  | some jiraKey =>
    rw [hr] at he
    replace he : e ∈ (if jiraKey ∈ g.issues.map Prod.fst then
        ([⟨.github gp.1.1 gp.1.2, "ADDRESSES", .issue jiraKey⟩,
          ⟨.issue jiraKey, "TRACKED_IN", .github gp.1.1 gp.1.2⟩] : List XEdge)
      else []) := he
    by_cases hk : jiraKey ∈ g.issues.map Prod.fst
    · rw [if_pos hk] at he
      have hgmem : (gp.1.1, gp.1.2) ∈ g.githubIssues.map Prod.fst := by
        simpa using List.mem_map_of_mem Prod.fst hgp
      rcases mem_pair he with rfl | rfl
      · exact ⟨by simpa [XGraph.hasRef] using hgmem,
          by simpa [XGraph.hasRef] using hk⟩
      · exact ⟨by simpa [XGraph.hasRef] using hk,
          by simpa [XGraph.hasRef] using hgmem⟩
    · rw [if_neg hk] at he; cases he

theorem implementsCands_endpoints (m : XMatcher) (g : XGraph) :
    ∀ e ∈ implementsCands m g, xEndpointsOk g e := by
  intro e he
  simp only [implementsCands, List.mem_flatMap] at he
  obtain ⟨pp, hpp, row, _, he⟩ := he
  cases hr : row.head? with
  | none =>
    rw [hr] at he
    replace he : e ∈ ([] : List XEdge) := he
    cases he
  | some jiraKey =>
    rw [hr] at he
    replace he : e ∈ (if jiraKey ∈ g.issues.map Prod.fst then
        ([⟨.pull pp.1.1 pp.1.2, "IMPLEMENTS", .issue jiraKey⟩,
          ⟨.issue jiraKey, "IMPLEMENTED_IN", .pull pp.1.1 pp.1.2⟩] : List XEdge)
      else []) := he
    by_cases hk : jiraKey ∈ g.issues.map Prod.fst
    · rw [if_pos hk] at he
      have hpmem : (pp.1.1, pp.1.2) ∈ g.pullRequests.map Prod.fst := by
        simpa using List.mem_map_of_mem Prod.fst hpp
      rcases mem_pair he with rfl | rfl
      · exact ⟨by simpa [XGraph.hasRef] using hpmem,
          by simpa [XGraph.hasRef] using hk⟩
      · exact ⟨by simpa [XGraph.hasRef] using hk,
          by simpa [XGraph.hasRef] using hpmem⟩
    · rw [if_neg hk] at he; cases he

theorem referencesCands_endpoints (m : XMatcher) (g : XGraph) :
    ∀ e ∈ referencesCands m g, xEndpointsOk g e := by
  intro e he
  simp only [referencesCands, List.mem_flatMap] at he
  obtain ⟨jp, hjp, row, _, he⟩ := he
  have hjmem : jp.1 ∈ g.issues.map Prod.fst := List.mem_map_of_mem Prod.fst hjp
  cases hr : row.get? 1 with
  | none =>
    rw [hr] at he
    replace he : e ∈ ([] : List XEdge) := he
    cases he
  | some s =>
    rw [hr] at he
    replace he : e ∈ (match s.toNat? with
      | some n => (g.githubIssues.filter
            (fun (gp : (String × Nat) × GhIssueProps) => gp.1.2 = n)).flatMap
          (fun gp =>
            ([⟨.issue jp.1, "REFERENCES", .github gp.1.1 gp.1.2⟩,
              ⟨.github gp.1.1 gp.1.2, "REFERENCED_BY", .issue jp.1⟩] :
              List XEdge))
      | none => []) := he
    cases hn : s.toNat? with
    | none =>
      rw [hn] at he
      replace he : e ∈ ([] : List XEdge) := he
      cases he
    | some n =>
      rw [hn] at he
      simp only [List.mem_flatMap] at he
      obtain ⟨gp, hgp, he⟩ := he
      have hgmem : (gp.1.1, gp.1.2) ∈ g.githubIssues.map Prod.fst := by
        simpa using List.mem_map_of_mem Prod.fst (List.mem_of_mem_filter hgp)
      rcases mem_pair he with rfl | rfl
      · exact ⟨by simpa [XGraph.hasRef] using hjmem,
          by simpa [XGraph.hasRef] using hgmem⟩
      · exact ⟨by simpa [XGraph.hasRef] using hgmem,
          by simpa [XGraph.hasRef] using hjmem⟩

/-- Does the integrated-ETL graph contain a node for this reference? -/
def JGGraph.hasRef (g : JGGraph) : JGRef → Bool
  | .jira k => k ∈ g.jiraIssues.map Prod.fst
  | .project k => k ∈ g.jiraProjects.map Prod.fst
  | .github r n => (r, n) ∈ g.githubIssues.map Prod.fst
  | .repo n => n ∈ g.repositories.map Prod.fst
  | .org n => n ∈ g.organizations
  | .tech n => n ∈ g.technologies
  | .comp n => n ∈ g.components

def jgEndpointsOk (g : JGGraph) (e : JGEdge) : Prop :=
  g.hasRef e.src = true ∧ g.hasRef e.dst = true

theorem jgCrossRefCands_endpoints (m : JGMatcher) (g : JGGraph) :
    ∀ e ∈ jgCrossRefCands m g, jgEndpointsOk g e := by
  intro e he
  simp only [jgCrossRefCands, List.mem_flatMap] at he
  obtain ⟨gp, hgp, ref, _, he⟩ := he
  by_cases hk : ref ∈ g.jiraIssues.map Prod.fst
  · rw [if_pos hk] at he
    have hgmem : (gp.1.1, gp.1.2) ∈ g.githubIssues.map Prod.fst := by
      simpa using List.mem_map_of_mem Prod.fst hgp
    rcases mem_pair he with rfl | rfl
    · exact ⟨by simpa [JGGraph.hasRef] using hgmem,
        by simpa [JGGraph.hasRef] using hk⟩
    · exact ⟨by simpa [JGGraph.hasRef] using hk,
        by simpa [JGGraph.hasRef] using hgmem⟩
  · rw [if_neg hk] at he; cases he

theorem applyOps_flatMap_edges (s : OpState) {β : Type} (l : List β)
    (f : β → List JGEdge) :
    applyOps s (l.flatMap (fun m => (f m).map SyncOp.edge)) =
      { s with edges := foldEnsure s.edges (l.flatMap f) } := by
  induction l generalizing s with
  | nil => rfl
  | cons m l ih =>
    rw [List.flatMap_cons, applyOps_append, applyOps_edges_map, ih,
      List.flatMap_cons, foldEnsure_append]

/-- Edge-level closed form of `_create_cross_references`: it only appends
the candidate edges and changes nothing else. -/
theorem createCrossReferences_edges (pats : List JGMatcher) (g : JGGraph) :
    createCrossReferencesTx pats g =
      { g with
        edges :=
          foldEnsure g.edges (pats.flatMap (fun m => jgCrossRefCands m g)) } := by
  rw [createCrossReferences_closed]
  unfold crossRefOps
  have h := applyOps_flatMap_edges g.opState pats
    (fun m => jgCrossRefCandsP m (g.githubIssues.map ghTextProj)
      (g.jiraIssues.map Prod.fst))
  rw [h]
  have hc : pats.flatMap (fun m =>
      jgCrossRefCandsP m (g.githubIssues.map ghTextProj)
        (g.jiraIssues.map Prod.fst)) =
      pats.flatMap (fun m => jgCrossRefCands m g) := by
    congr 1
    funext m
    rw [jgCrossRefCands_eq]
  rw [hc]
  rfl

/-- `extract_technologies` of `cross_ref_etl.py`: per pattern, extract
`match[0]` from the lower-cased text of every `:Issue`, `:GitHubIssue`,
and `:PullRequest` node, `MERGE` the technology node under the matched
(lower-case) name and an `INVOLVES` edge. -/
def extractTechnologiesXTx (pats : List XMatcher) (g : XGraph) : XGraph :=
  pats.foldl (fun g m =>
    let g1 := g.issues.foldl (fun (acc : XGraph) jp =>
      (m ((jp.2.description ++ " " ++ jp.2.summary).toLower)).foldl
        (fun (acc : XGraph) row =>
          match row.head? with
          | some tech =>
            { acc with
              technologies := ensureMem tech acc.technologies
              edges :=
                ensureMem ⟨.issue jp.1, "INVOLVES", .tech tech⟩ acc.edges }
          | none => acc) acc) g
    let g2 := g1.githubIssues.foldl (fun (acc : XGraph) gp =>
      (m ((gp.2.body ++ " " ++ gp.2.title).toLower)).foldl
        (fun (acc : XGraph) row =>
          match row.head? with
          | some tech =>
            { acc with
              technologies := ensureMem tech acc.technologies
              edges :=
                ensureMem ⟨.github gp.1.1 gp.1.2, "INVOLVES", .tech tech⟩
                  acc.edges }
          | none => acc) acc) g1
    g2.pullRequests.foldl (fun (acc : XGraph) pp =>
      (m ((pp.2.body ++ " " ++ pp.2.title).toLower)).foldl
        (fun (acc : XGraph) row =>
          match row.head? with
          | some tech =>
            { acc with
              technologies := ensureMem tech acc.technologies
              edges :=
                ensureMem ⟨.pull pp.1.1 pp.1.2, "INVOLVES", .tech tech⟩
                  acc.edges }
          | none => acc) acc) g2) g

theorem foldl_preserves {α β : Type} (P : β → Prop) (step : β → α → β)
    (hstep : ∀ b a, P b → P (step b a)) :
    ∀ (l : List α) (b : β), P b → P (l.foldl step b) := by
  intro l
  induction l with
  | nil => exact fun b h => h
  | cons a l ih => exact fun b h => ih (step b a) (hstep b a h)

theorem foldl_preserves_mem {α β : Type} (P : β → Prop) (step : β → α → β) :
    ∀ (l : List α), (∀ b a, a ∈ l → P b → P (step b a)) →
      ∀ b, P b → P (l.foldl step b) := by
  intro l
  induction l with
  | nil => exact fun _ b h => h
  | cons a l ih =>
    exact fun hstep b h =>
      ih (fun b a' ha' => hstep b a' (by simp [ha'])) (step b a)
        (hstep b a (by simp) h)

/-! ### Batch loader characterizations -/

/-- `jira_etl.load_to_neo4j` with every record keyed: each record is
attempted in order, failures are logged (not raised), the loop never
aborts. -/
theorem loadToNeo4jJE_all_keys (w : JiraRecord → Bool) :
    ∀ batch : List JiraRecord, (∀ r ∈ batch, r.key.isSome) →
      loadToNeo4jJE w batch =
        (batch.map (fun r => (r.key.getD "", w r)), false) := by
  intro batch
  induction batch with
  | nil => intro _; rfl
  | cons r rs ih =>
    intro h
    obtain ⟨k, hk⟩ := Option.isSome_iff_exists.mp (h r (by simp))
    simp only [loadToNeo4jJE]
    rw [hk, ih (fun x hx => h x (by simp [hx]))]
    simp [hk]

/-- `jira_etl.load_to_neo4j` with a keyless record: the records before it
are attempted, then the handler's `issue['key']` lookup raises and the
remainder of the batch is abandoned. -/
theorem loadToNeo4jJE_abort (w : JiraRecord → Bool) :
    ∀ (pre : List JiraRecord) (r : JiraRecord) (post : List JiraRecord),
      (∀ x ∈ pre, x.key.isSome) → r.key = none →
      loadToNeo4jJE w (pre ++ r :: post) =
        (pre.map (fun x => (x.key.getD "", w x)), true) := by
  intro pre
  induction pre with
  | nil =>
    intro r post _ hr
    simp only [List.nil_append, loadToNeo4jJE]
    rw [hr]
    rfl
  | cons p pre ih =>
    intro r post h hr
    obtain ⟨k, hk⟩ := Option.isSome_iff_exists.mp (h p (by simp))
    simp only [List.cons_append, loadToNeo4jJE]
    rw [hk]
    show ((k, w p) :: (loadToNeo4jJE w (pre ++ r :: post)).1,
        (loadToNeo4jJE w (pre ++ r :: post)).2) = _
    rw [ih r post (fun x hx => h x (by simp [hx])) hr]
    simp [hk]

/-- `jira_github_etl._load_to_neo4j` loop: processes the longest prefix
of records whose writes succeed, and aborts at the first failure. -/
theorem runJGBatch_spec {α κ : Type} (w : α → Bool) (key : α → κ) :
    ∀ batch : List α,
      runJGBatch w key batch =
        ((batch.takeWhile w).map key, batch.any (fun r => !(w r))) := by
  intro batch
  induction batch with
  | nil => rfl
  | cons r rs ih =>
    by_cases hw : w r <;>
      simp [runJGBatch, hw, ih, List.takeWhile_cons]

/-! ### Pagination loop characterizations -/

theorem fetchJiraBatch_spec {α : Type} (pages : Nat → List α)
    (bs delay : Nat) :
    ∀ (k fuel s : Nat), k < fuel →
      (∀ i, i < k → (pages (s + i * bs)).length = bs) →
      (pages (s + k * bs)).length < bs →
      (fetchJiraBatch pages bs delay s fuel).1 =
        (List.range (k + 1)).flatMap (fun i => pages (s + i * bs)) := by
  intro k
  induction k with
  | zero =>
    intro fuel s hfuel hfull hshort
    obtain ⟨fuel', rfl⟩ : ∃ f', fuel = f' + 1 := ⟨fuel - 1, by omega⟩
    simp only [Nat.zero_mul, Nat.add_zero] at hshort
    simp only [fetchJiraBatch]
    by_cases he : (pages s).isEmpty
    · rw [if_pos he]
      have : pages s = [] := List.isEmpty_iff.mp he
      rw [show List.range 1 = [0] from rfl]
      simp [this]
    · rw [if_neg he, if_pos hshort]
      rw [show List.range 1 = [0] from rfl]
      simp
  | succ k ih =>
    intro fuel s hfuel hfull hshort
    obtain ⟨fuel', rfl⟩ : ∃ f', fuel = f' + 1 := ⟨fuel - 1, by omega⟩
    have h0 : (pages s).length = bs := by
      simpa using hfull 0 (by omega)
    have hbs : 0 < bs := by
      rcases Nat.eq_zero_or_pos bs with h | h
      · omega
      · exact h
    have hne : ¬ (pages s).isEmpty := by
      intro hc
      rw [List.isEmpty_iff.mp hc] at h0
      simp at h0
      omega
    simp only [fetchJiraBatch]
    rw [if_neg hne, if_neg (by omega : ¬ (pages s).length < bs)]
    have hrec := ih fuel' (s + bs) (by omega)
      (fun i hi => by
        have := hfull (i + 1) (by omega)
        rwa [show s + (i + 1) * bs = s + bs + i * bs by ring] at this)
      (by
        have := hshort
        rwa [show s + (k + 1) * bs = s + bs + k * bs by ring] at this)
    have hr : (List.range (k + 1 + 1)).flatMap (fun i => pages (s + i * bs)) =
        pages s ++
          (List.range (k + 1)).flatMap (fun i => pages (s + bs + i * bs)) := by
      rw [List.range_succ_eq_map, List.flatMap_cons, List.flatMap_map]
      simp only [Nat.zero_mul, Nat.add_zero]
      congr 1
      exact congrArg _ (funext fun i => congrArg pages
        (by simp only [Nat.succ_eq_add_one]; ring))
    rw [hr, ← hrec]

theorem fetchJiraBatch_sleep_sep {α : Type} (pages : Nat → List α)
    (bs delay : Nat) :
    ∀ (fuel s : Nat),
      List.Chain' (fun a b => ¬(a.isRequest = true ∧ b.isRequest = true))
        (fetchJiraBatch pages bs delay s fuel).2 := by
  intro fuel
  induction fuel with
  | zero => intro s; simp [fetchJiraBatch]
  | succ fuel ih =>
    intro s
    simp only [fetchJiraBatch]
    by_cases he : (pages s).isEmpty
    · rw [if_pos he]; simp
    · rw [if_neg he]
      by_cases hs : (pages s).length < bs
      · rw [if_pos hs]
        simp [FetchEvent.isRequest]
      · rw [if_neg hs]
        rw [List.chain'_cons]
        refine ⟨by simp [FetchEvent.isRequest], ?_⟩
        rw [List.chain'_cons']
        exact ⟨fun h _ => by simp [FetchEvent.isRequest], ih (s + bs)⟩

theorem runEtlProjectPages_spec {α : Type} (pages : Nat → List α)
    (mr : Nat) :
    ∀ (k fuel s : Nat), k < fuel →
      (∀ i, i < k → (pages (s + i * mr)).length = mr) →
      (pages (s + k * mr)).length < mr →
      (runEtlProjectPages pages mr s fuel).1 =
        (List.range (k + 1)).flatMap (fun i => pages (s + i * mr)) := by
  intro k
  induction k with
  | zero =>
    intro fuel s hfuel hfull hshort
    obtain ⟨fuel', rfl⟩ : ∃ f', fuel = f' + 1 := ⟨fuel - 1, by omega⟩
    simp only [Nat.zero_mul, Nat.add_zero] at hshort
    simp only [runEtlProjectPages]
    by_cases he : (pages s).isEmpty
    · rw [if_pos he]
      have : pages s = [] := List.isEmpty_iff.mp he
      rw [show List.range 1 = [0] from rfl]
      simp [this]
    · rw [if_neg he, if_pos hshort]
      rw [show List.range 1 = [0] from rfl]
      simp
  | succ k ih =>
    intro fuel s hfuel hfull hshort
    obtain ⟨fuel', rfl⟩ : ∃ f', fuel = f' + 1 := ⟨fuel - 1, by omega⟩
    have h0 : (pages s).length = mr := by
      simpa using hfull 0 (by omega)
    have hmr : 0 < mr := by
      rcases Nat.eq_zero_or_pos mr with h | h
      · omega
      · exact h
    have hne : ¬ (pages s).isEmpty := by
      intro hc
      rw [List.isEmpty_iff.mp hc] at h0
      simp at h0
      omega
    simp only [runEtlProjectPages]
    rw [if_neg hne, if_neg (by omega : ¬ (pages s).length < mr)]
    have hrec := ih fuel' (s + mr) (by omega)
      (fun i hi => by
        have := hfull (i + 1) (by omega)
        rwa [show s + (i + 1) * mr = s + mr + i * mr by ring] at this)
      (by
        have := hshort
        rwa [show s + (k + 1) * mr = s + mr + k * mr by ring] at this)
    have hr : (List.range (k + 1 + 1)).flatMap (fun i => pages (s + i * mr)) =
        pages s ++
          (List.range (k + 1)).flatMap (fun i => pages (s + mr + i * mr)) := by
      rw [List.range_succ_eq_map, List.flatMap_cons, List.flatMap_map]
      simp only [Nat.zero_mul, Nat.add_zero]
      congr 1
      exact congrArg _ (funext fun i => congrArg pages
        (by simp only [Nat.succ_eq_add_one]; ring))
    rw [hr, ← hrec]

/-- `jira_etl.run_etl` never sleeps between page requests. -/
theorem runEtlProjectPages_no_sleep {α : Type} (pages : Nat → List α)
    (mr : Nat) :
    ∀ (fuel s : Nat), ∀ e ∈ (runEtlProjectPages pages mr s fuel).2,
      e.isRequest = true := by
  intro fuel
  induction fuel with
  | zero => intro s e he; simp [runEtlProjectPages] at he
  | succ fuel ih =>
    intro s e he
    simp only [runEtlProjectPages] at he
    by_cases hemp : (pages s).isEmpty
    · rw [if_pos hemp] at he
      simp at he
      simp [he, FetchEvent.isRequest]
    · rw [if_neg hemp] at he
      by_cases hs : (pages s).length < mr
      · rw [if_pos hs] at he
        simp at he
        simp [he, FetchEvent.isRequest]
      · rw [if_neg hs] at he
        rcases List.mem_cons.mp he with rfl | he
        · simp [FetchEvent.isRequest]
        · exact ih (s + mr) e he

/-! ### GitHub fetch bound characterizations -/

theorem collectRepoIssues_eq {α : Type} (bs : Nat) (excl : α → Bool) :
    ∀ (stream acc : List α), acc.length < bs →
      collectRepoIssues bs excl acc stream =
        acc ++ (stream.filter (fun i => !excl i)).take (bs - acc.length) := by
  intro stream
  induction stream with
  | nil => intro acc _; simp [collectRepoIssues]
  | cons i rest ih =>
    intro acc hacc
    by_cases he : excl i
    · simp [collectRepoIssues, he, ih acc hacc]
    · simp only [collectRepoIssues, he]
      rw [if_neg (by simp [he])]
      by_cases hfull : bs ≤ (acc ++ [i]).length
      · rw [if_pos hfull]
        have hb : bs - acc.length = 1 := by
          simp at hfull
          omega
        simp [he, hb]
      · rw [if_neg hfull]
        rw [ih (acc ++ [i]) (by simp at hfull ⊢; omega)]
        have hb : bs - acc.length = (bs - (acc ++ [i]).length) + 1 := by
          simp at hfull ⊢
          omega
        simp [he, hb]

theorem fetchGithubRepoIssues_eq {α : Type} (bs : Nat) (excl : α → Bool)
    (stream : List α) (hbs : 1 ≤ bs) :
    fetchGithubRepoIssues bs excl stream =
      (stream.filter (fun i => !excl i)).take bs := by
  unfold fetchGithubRepoIssues
  rw [collectRepoIssues_eq bs excl stream [] (by simpa using hbs)]
  simp

theorem fetchGithubOrgSample_eq {α : Type} (m : Nat) :
    ∀ (repos : List (RepoFetch α)) (c : Nat),
      fetchGithubOrgSample m repos c =
        ((repos.filter (fun r => !r.fails)).take (m - c)).flatMap
          (fun r => r.issues.take 10) := by
  intro repos
  induction repos with
  | nil => intro c; simp [fetchGithubOrgSample]
  | cons r rest ih =>
    intro c
    by_cases hc : m ≤ c
    · rw [show m - c = 0 by omega]
      simp [fetchGithubOrgSample, hc]
    · by_cases hf : r.fails
      · simp [fetchGithubOrgSample, hc, hf, ih c]
      · have h1 : m - c = (m - (c + 1)) + 1 := by omega
        simp [fetchGithubOrgSample, hc, hf, ih (c + 1), h1]

/-! ### Technology-name characterizations (integrated ETL) -/

theorem mem_technologies_applyOps (s : OpState) (ops : List SyncOp) :
    ∀ n ∈ (applyOps s ops).technologies,
      n ∈ s.technologies ∨ SyncOp.tech n ∈ ops := by
  induction ops generalizing s with
  | nil => exact fun n hn => Or.inl hn
  | cons op ops ih =>
    intro n hn
    rcases ih (applyOp s op) n hn with h | h
    · cases op with
      | tech m =>
        rcases mem_ensureMem_iff.mp h with h | rfl
        · exact Or.inl h
        · exact Or.inr (by simp)
      | comp m => exact Or.inl h
      | edge e => exact Or.inl h
    · exact Or.inr (by simp [h])

theorem techLinkOps_tech_names (jk : List String) (gk : List (String × Nat))
    (t : JGRef) (w n : String) :
    SyncOp.tech n ∈ techLinkOps jk gk t w → n = w.toLower := by
  intro h
  cases t with
  | jira k =>
    by_cases hk : k ∈ jk
    · replace h : SyncOp.tech n ∈
          [SyncOp.tech w.toLower,
           SyncOp.edge ⟨.jira k, "INVOLVES", .tech w.toLower⟩] := by
        simpa [techLinkOps, hk] using h
      rcases mem_pair h with h | h
      · exact SyncOp.tech.inj h
      · exact SyncOp.noConfusion h
    · replace h : SyncOp.tech n ∈ ([] : List SyncOp) := by
        simpa [techLinkOps, hk] using h
      cases h
  | github r num =>
    by_cases hk : (r, num) ∈ gk
    · replace h : SyncOp.tech n ∈
          [SyncOp.tech w.toLower,
           SyncOp.edge ⟨.github r num, "INVOLVES", .tech w.toLower⟩] := by
        simpa [techLinkOps, hk] using h
      rcases mem_pair h with h | h
      · exact SyncOp.tech.inj h
      · exact SyncOp.noConfusion h
    · replace h : SyncOp.tech n ∈ ([] : List SyncOp) := by
        simpa [techLinkOps, hk] using h
      cases h
  | project k => cases h
  | repo k => cases h
  | org k => cases h
  | tech k => cases h
  | comp k => cases h

theorem techOps_tech_names (jk : List String) (gk : List (String × Nat))
    (pats : List JGMatcher) (jrecs : List JiraIssueData)
    (grecs : List GitHubIssueData) (n : String) :
    SyncOp.tech n ∈ techOps jk gk pats jrecs grecs →
      ∃ w : String, n = w.toLower := by
  intro h
  simp only [techOps, List.mem_append, List.mem_flatMap] at h
  rcases h with ⟨i, _, m, _, w, _, hw⟩ | ⟨i, _, m, _, w, _, hw⟩
  · exact ⟨w, techLinkOps_tech_names jk gk _ w n hw⟩
  · exact ⟨w, techLinkOps_tech_names jk gk _ w n hw⟩

/-- Every technology node name `_extract_technologies` adds is produced
by `.lower()`. -/
theorem extractTechnologies_names (pats : List JGMatcher)
    (jrecs : List JiraIssueData) (grecs : List GitHubIssueData)
    (g : JGGraph) (n : String) :
    n ∈ (extractTechnologiesTx pats jrecs grecs g).technologies →
      n ∈ g.technologies ∨ ∃ w : String, n = w.toLower := by
  rw [extractTechnologies_closed]
  intro hn
  rcases mem_technologies_applyOps _ _ n hn with h | h
  · exact Or.inl h
  · exact Or.inr (techOps_tech_names _ _ _ _ _ n h)

/-! ### Case normalization facts -/

theorem char_ofNat_toNat {n : Nat} (h : n.isValidChar) :
    (Char.ofNat n).toNat = n := by
  unfold Char.ofNat
  rw [dif_pos h]
  rfl

theorem char_toLower_idem (c : Char) :
    Char.toLower (Char.toLower c) = Char.toLower c := by
  unfold Char.toLower
  by_cases h : c.toNat ≥ 65 ∧ c.toNat ≤ 90
  · rw [if_pos h]
    have hv : (c.toNat + 32).isValidChar := Or.inl (by omega)
    have ht : (Char.ofNat (c.toNat + 32)).toNat = c.toNat + 32 :=
      char_ofNat_toNat hv
    rw [if_neg (by omega :
      ¬((Char.ofNat (c.toNat + 32)).toNat ≥ 65 ∧
        (Char.ofNat (c.toNat + 32)).toNat ≤ 90))]
  · rw [if_neg h, if_neg h]

theorem string_toLower_data (s : String) :
    s.toLower.data = s.data.map Char.toLower := by
  show (String.map Char.toLower s).data = _
  rw [String.map_eq]

theorem string_toLower_idem (s : String) : s.toLower.toLower = s.toLower := by
  apply String.ext
  rw [string_toLower_data, string_toLower_data, List.map_map]
  apply List.map_congr_left
  intro c _
  exact char_toLower_idem c

/-- Every character of a lower-cased string is a fixpoint of
`Char.toLower`; hence any substring of it is lower-case-fixed. -/
theorem toLower_fixed_of_sub {x t : String}
    (h : x.data <:+: t.toLower.data) : x.toLower = x := by
  apply String.ext
  rw [string_toLower_data]
  have hx : ∀ c ∈ x.data, Char.toLower c = c := by
    intro c hc
    have hct : c ∈ t.toLower.data := h.subset hc
    rw [string_toLower_data] at hct
    obtain ⟨c', _, rfl⟩ := List.mem_map.mp hct
    exact char_toLower_idem c'
  exact (List.map_congr_left fun c hc => hx c hc).trans (List.map_id x.data)

/-- The invariant step for one query of the cross-reference ETL's
technology extraction: matched names come from rows of the matcher run
on a lower-cased text, so (under the regex contract that a full match is
a substring of its input) they are lower-case-fixed. -/
theorem xtech_rowfold_pres (g : XGraph) (m : XMatcher)
    (hm : ∀ (t : String) (row : List String) (x : String),
      row ∈ m t → row.head? = some x → x.data <:+: t.data)
    (txt : String) (ed : String → XEdge) (acc : XGraph)
    (hacc : ∀ n ∈ acc.technologies, n ∈ g.technologies ∨ n.toLower = n) :
    ∀ n ∈ ((m txt.toLower).foldl (fun (acc : XGraph) row =>
        match row.head? with
        | some tech =>
          { acc with
            technologies := ensureMem tech acc.technologies
            edges := ensureMem (ed tech) acc.edges }
        | none => acc) acc).technologies,
      n ∈ g.technologies ∨ n.toLower = n := by
  refine foldl_preserves_mem
    (fun (acc : XGraph) => ∀ n ∈ acc.technologies,
      n ∈ g.technologies ∨ n.toLower = n) _ (m txt.toLower) ?_ acc hacc
  intro acc' row hrowmem hacc'
  cases hh : row.head? with
  | none =>
    exact hacc'
  | some tech =>
    intro n hn
    replace hn : n ∈ ensureMem tech acc'.technologies := hn
    rcases mem_ensureMem_iff.mp hn with h | rfl
    · exact hacc' n h
    · exact Or.inr (toLower_fixed_of_sub (hm txt.toLower row n hrowmem hh))

/-- Every technology node name the cross-reference ETL's
`extract_technologies` adds is lower-case-fixed, under the regex
contract that every row's full match is a substring of the searched
text. -/
theorem extractTechnologiesXTx_names (pats : List XMatcher)
    (hsub : ∀ m ∈ pats, ∀ (t : String) (row : List String) (x : String),
      row ∈ m t → row.head? = some x → x.data <:+: t.data)
    (g : XGraph) :
    ∀ n ∈ (extractTechnologiesXTx pats g).technologies,
      n ∈ g.technologies ∨ n.toLower = n := by
  unfold extractTechnologiesXTx
  refine foldl_preserves_mem
    (fun (acc : XGraph) => ∀ n ∈ acc.technologies,
      n ∈ g.technologies ∨ n.toLower = n) _ pats ?_ g (fun n hn => Or.inl hn)
  intro b m hm hb
  have hmprop := hsub m hm
  apply foldl_preserves
    (fun (acc : XGraph) => ∀ n ∈ acc.technologies,
      n ∈ g.technologies ∨ n.toLower = n)
    _ (fun acc pp hacc =>
      xtech_rowfold_pres g m hmprop (pp.2.body ++ " " ++ pp.2.title)
        (fun tech => ⟨.pull pp.1.1 pp.1.2, "INVOLVES", .tech tech⟩) acc hacc)
  apply foldl_preserves
    (fun (acc : XGraph) => ∀ n ∈ acc.technologies,
      n ∈ g.technologies ∨ n.toLower = n)
    _ (fun acc gp hacc =>
      xtech_rowfold_pres g m hmprop (gp.2.body ++ " " ++ gp.2.title)
        (fun tech => ⟨.github gp.1.1 gp.1.2, "INVOLVES", .tech tech⟩) acc hacc)
  apply foldl_preserves
    (fun (acc : XGraph) => ∀ n ∈ acc.technologies,
      n ∈ g.technologies ∨ n.toLower = n)
    _ (fun acc jp hacc =>
      xtech_rowfold_pres g m hmprop (jp.2.description ++ " " ++ jp.2.summary)
        (fun tech => ⟨.issue jp.1, "INVOLVES", .tech tech⟩) acc hacc)
  exact hb

/-- Idempotence of `create_jira_github_references` as a graph operation. -/
theorem createJiraGithubReferencesTx_idem (pats : List XMatcher) (g : XGraph) :
    createJiraGithubReferencesTx pats (createJiraGithubReferencesTx pats g) =
      createJiraGithubReferencesTx pats g := by
  rw [createJiraGithubReferences_closed pats g,
    createJiraGithubReferences_closed]
  show XGraph.withEdges _ (foldEnsure
    (foldEnsure g.edges
      (pats.flatMap (fun m => addressesCands m g ++ implementsCands m g)))
    (pats.flatMap (fun m => addressesCands m g ++ implementsCands m g))) = _
  rw [foldEnsure_absorb]
  rfl

/-! ## Remaining support lemmas for the claims -/

/-- When every attempt fails, the retry loop spends all its attempts,
sleeps the scheduled delay after each failure but the last, and returns
the final attempt's outcome. -/
theorem retryCallAux_all_fail {ε α : Type} (w : Nat → Nat)
    (a : Nat → Except ε α) (ha : ∀ n, (a n).isOk = false) :
    ∀ rem n, retryCallAux w a n rem =
      (a (n + rem), (List.range rem).map (fun i => w (n + i)), rem + 1) := by
  intro rem
  induction rem with
  | zero => intro n; simp [retryCallAux]
  | succ rem ih =>
    intro n
    simp only [retryCallAux]
    cases h : a n with
    | ok v =>
      exfalso
      have hn := ha n
      rw [h] at hn
      simp [Except.isOk, Except.toBool] at hn
    | error e =>
      rw [ih (n + 1)]
      have h1 : n + 1 + rem = n + (rem + 1) := by omega
      have h2 : w n :: (List.range rem).map (fun i => w (n + 1 + i)) =
          (List.range (rem + 1)).map (fun i => w (n + i)) := by
        rw [List.range_succ_eq_map, List.map_cons, List.map_map]
        refine congrArg₂ List.cons ?_ ?_
        · show w n = w (n + 0)
          exact congrArg w (by omega)
        · refine (List.map_congr_left ?_).symm
          intro i _
          show w (n + (i + 1)) = w (n + 1 + i)
          exact congrArg w (by omega)
      rw [h1, h2]

/-- A pattern none of whose extracted references names an existing
`:JiraIssue` node contributes zero candidate edges. -/
theorem jgCrossRefCands_nil_of_miss (m : JGMatcher) (g : JGGraph)
    (h : ∀ text ref, ref ∈ m text → ref ∉ g.jiraIssues.map Prod.fst) :
    jgCrossRefCands m g = [] := by
  rw [List.eq_nil_iff_forall_not_mem]
  intro e he
  simp only [jgCrossRefCands, List.mem_flatMap] at he
  obtain ⟨gp, hgp, ref, href, he⟩ := he
  rw [if_neg (h _ ref href)] at he
  cases he

theorem createGitHubIssueTx_idem (cats : List (String × List String))
    (now : Nat) (i : GitHubIssueData) (g : JGGraph) :
    createGitHubIssueTx cats now i (createGitHubIssueTx cats now i g) =
      createGitHubIssueTx cats now i g := by
  unfold createGitHubIssueTx
  dsimp only
  rw [upsertList_absorb, upsertList_absorb, ensureMem_absorb,
    ensureMem_of_mem (mem_ensureMem_of_mem _ (mem_ensureMem_self _ _)),
    ensureMem_of_mem (mem_ensureMem_of_mem _ (mem_ensureMem_self _ _))]

/-! ## Fixtures for witnesses and counterexamples -/

def mkJira (key summary description status issueType project : String)
    (labels : List String) : JiraIssueData :=
  ⟨key, summary, description, status, "Major", issueType, project, "", "", "",
    "", labels, []⟩

def closedX1 : JiraIssueData :=
  mkJira "X-1" "closed work" "" "Closed" "Task" "PX" []

def closedX2 : JiraIssueData :=
  mkJira "X-2" "other closed work" "" "Closed" "Task" "PX" []

def openSummaryIssue : JiraIssueData :=
  mkJira "O-1" "relates to X-1" "no reference here" "Open" "Task" "PX" []

def openDescIssue : JiraIssueData :=
  mkJira "O-2" "open work" "depends on X-1" "Open" "Task" "PX" []

def recA1 : JiraRecord := ⟨some "A-1"⟩

def recA2 : JiraRecord := ⟨some "A-2"⟩

def recA3 : JiraRecord := ⟨some "A-3"⟩

def recNoKey : JiraRecord := ⟨none⟩

def wRec : JiraRecord → Bool := fun _ => true

def wGX : JiraIssueData → Bool := fun i => i.key == "X-2"

def failAttempt : Nat → Except Nat Nat := fun _ => .error 0

def okAttempt : Nat → Except Nat Nat := fun _ => .ok 7

def pages2 : Nat → List Nat :=
  fun s => if s = 0 then [1, 2] else if s = 2 then [3] else []

def jiraK1 : JiraIssueData :=
  mkJira "K-1" "Deploy Kubernetes cluster" "" "Open" "Task" "PK" []

def jiraK2 : JiraIssueData :=
  mkJira "K-2" "kubernetes upgrade" "" "Open" "Task" "PK" []

def jgW : JGGraph :=
  createJiraIssueTx 0 jiraK2 (createJiraIssueTx 0 jiraK1 JGGraph.empty)

def missMatcher : JGMatcher := fun _ => ["ZZ-9"]

def epicE : String × IssueProps :=
  ("E-1", ⟨"platform epic", "", "Epic", [], "PX"⟩)

def storyS : String × IssueProps :=
  ("S-1", ⟨"story work", "part of E-1", "Story", [], "PX"⟩)

def bugB : String × IssueProps :=
  ("B-1", ⟨"bug report", "caused by S-1", "Bug", [], "PX"⟩)

def hierG : XGraph := ⟨[epicE, storyS, bugB], [], [], [], [], []⟩

def hierOut : XGraph := createHierarchyRelationshipsTx hierG

/-! ## The claims -/

/-- C10: the retention filter returns a sublist of its closed-items input
(elements unmodified, in order, never added or duplicated), and with the
`include_closed_with_open_deps` flag off it returns the empty list
regardless of open-item references. -/
theorem retention_shape_C10 (flag : Bool)
    (closedIssues openIssues : List JiraIssueData) :
    (filterClosedWithOpenDeps flag closedIssues openIssues).Sublist
      closedIssues ∧
    filterClosedWithOpenDeps false closedIssues openIssues = [] := by
  constructor
  · cases flag with
    | false => exact List.nil_sublist closedIssues
    | true =>
      show (closedIssues.filter _).Sublist closedIssues
      exact List.filter_sublist closedIssues
  · rfl

/-- C1 counterexample: the spec says a closed item is retained when its
key appears in the summary or the description of an open item, but
`_filter_closed_with_open_deps` checks only `open_issue.description`.
The closed issue X-1 is referenced in the summary of an open issue yet
is dropped. -/
theorem retention_filter_C1_counterexample :
    pyIn closedX1.key openSummaryIssue.summary = true ∧
    filterClosedWithOpenDeps true [closedX1] [openSummaryIssue] = [] :=
  ⟨rfl, rfl⟩

/-- C1 (amended): with the flag on, a closed issue is retained if and
only if its key occurs as a substring of the description of at least one
open issue — the summary is not consulted.  The list reaching the load
stage is the open issues plus exactly the retained closed issues. -/
theorem retention_filter_C1 (flag : Bool) (c : JiraIssueData)
    (closedIssues openIssues : List JiraIssueData) (hc : c ∈ closedIssues) :
    (c ∈ filterClosedWithOpenDeps flag closedIssues openIssues ↔
      flag = true ∧ ∃ o ∈ openIssues, pyIn c.key o.description = true) ∧
    fetchJiraIssuesResult flag openIssues closedIssues =
      openIssues ++ filterClosedWithOpenDeps flag closedIssues openIssues := by
  refine ⟨?_, rfl⟩
  cases flag with
  | false =>
    show c ∈ ([] : List JiraIssueData) ↔ _
    simp
  | true =>
    show c ∈ closedIssues.filter
        (fun c => openIssues.any (fun o => pyIn c.key o.description)) ↔ _
    rw [List.mem_filter]
    simp only [List.any_eq_true]
    constructor
    · rintro ⟨-, o, ho, hp⟩
      exact ⟨trivial, o, ho, hp⟩
    · rintro ⟨-, o, ho, hp⟩
      exact ⟨hc, o, ho, hp⟩

/-- C1 witness: X-1, referenced in the description of an open issue, is
retained; the closed issue X-2, referenced by no open issue, is not. -/
theorem retention_filter_C1_witness :
    closedX1 ∈ [closedX1, closedX2] ∧
    ((closedX1 ∈ filterClosedWithOpenDeps true [closedX1, closedX2]
          [openDescIssue] ↔
        true = true ∧
          ∃ o ∈ [openDescIssue], pyIn closedX1.key o.description = true) ∧
      fetchJiraIssuesResult true [openDescIssue] [closedX1, closedX2] =
        [openDescIssue] ++
          filterClosedWithOpenDeps true [closedX1, closedX2] [openDescIssue]) :=
  ⟨by simp,
   retention_filter_C1 true closedX1 [closedX1, closedX2] [openDescIssue]
     (by simp)⟩

/-- C9 counterexample: with `batch_size = 0` the repo fetch still returns
one issue, because the size check runs only after the first append. -/
theorem github_fetch_bounds_C9_counterexample :
    ¬ (fetchGithubRepoIssues 0 (fun (_ : Nat) => false) [0]).length ≤ 0 := by
  decide

/-- C9 (amended): for `batch_size ≥ 1` a repo fetch returns the first
`batch_size` non-excluded issues of the stream (hence at most
`batch_size`), and an organization sample takes the first 10 repositories
that fetch successfully, at most 10 issues each (hence at most 100). -/
theorem github_fetch_bounds_C9 {α : Type} (bs : Nat) (hbs : 1 ≤ bs)
    (excl : α → Bool) (stream : List α) (repos : List (RepoFetch α)) :
    (fetchGithubRepoIssues bs excl stream).length ≤ bs ∧
    fetchGithubRepoIssues bs excl stream =
      (stream.filter (fun i => !excl i)).take bs ∧
    fetchGithubOrgSample 10 repos 0 =
      ((repos.filter (fun r => !r.fails)).take 10).flatMap
        (fun r => r.issues.take 10) ∧
    (fetchGithubOrgSample 10 repos 0).length ≤ 10 * 10 := by
  refine ⟨?_, fetchGithubRepoIssues_eq bs excl stream hbs,
    fetchGithubOrgSample_eq 10 repos 0, ?_⟩
  · rw [fetchGithubRepoIssues_eq bs excl stream hbs]
    exact List.length_take_le _ _
  · rw [fetchGithubOrgSample_eq 10 repos 0]
    rw [List.length_flatMap]
    have hb : ∀ x ∈ (((repos.filter (fun r => !r.fails)).take 10).map
        (fun r => (r.issues.take 10).length)), x ≤ 10 := by
      intro x hx
      obtain ⟨r, _, rfl⟩ := List.mem_map.mp hx
      exact List.length_take_le _ _
    have h2 := List.sum_le_card_nsmul
      (((repos.filter (fun r => !r.fails)).take 10).map
        (fun r => (r.issues.take 10).length)) 10 hb
    have h1 : (((repos.filter (fun r => !r.fails)).take 10).map
        (fun r => (r.issues.take 10).length)).length ≤ 10 := by
      rw [List.length_map]
      exact List.length_take_le _ _
    simp only [smul_eq_mul] at h2
    calc (((repos.filter (fun r => !r.fails)).take 10).map
          (fun r => (r.issues.take 10).length)).sum
        ≤ _ * 10 := h2
      _ ≤ 10 * 10 := Nat.mul_le_mul_right 10 h1

/-- C9 witness: with `batch_size = 2` the repo fetch keeps the first two
stream issues, and an empty organization samples nothing. -/
theorem github_fetch_bounds_C9_witness :
    (1 ≤ 2) ∧
    ((fetchGithubRepoIssues 2 (fun (_ : Nat) => false) [1, 2, 3]).length ≤ 2 ∧
      fetchGithubRepoIssues 2 (fun (_ : Nat) => false) [1, 2, 3] =
        (([1, 2, 3] : List Nat).filter
          (fun i => !(fun (_ : Nat) => false) i)).take 2 ∧
      fetchGithubOrgSample 10 ([] : List (RepoFetch Nat)) 0 =
        ((([] : List (RepoFetch Nat)).filter (fun r => !r.fails)).take 10).flatMap
          (fun r => r.issues.take 10) ∧
      (fetchGithubOrgSample 10 ([] : List (RepoFetch Nat)) 0).length ≤ 10 * 10) :=
  ⟨by decide,
   github_fetch_bounds_C9 2 (by decide) (fun (_ : Nat) => false) [1, 2, 3] []⟩

/-- C2 counterexample: neither loader contains every single-record
failure.  In the integrated loader a failing first record aborts the
whole batch (the succeeding X-2 is never upserted), and in the discrete
JIRA loader a record without a key aborts the loop (the handler's own
`issue['key']` lookup raises), abandoning the rest of the batch. -/
theorem batch_containment_C2_counterexample :
    runJGBatch wGX (fun i => i.key) [closedX1, closedX2] = ([], true) ∧
    loadToNeo4jJE wRec [recA1, recNoKey, recA3] = ([("A-1", true)], true) :=
  ⟨rfl, rfl⟩

/-- C2 (amended): the discrete JIRA loader's per-record `try`/`except`
contains write failures — every keyed record is attempted and logged and
the loop never aborts — but a record missing its identity key aborts the
remainder of the batch, and the integrated loader (which has no
per-record handler) upserts only the longest prefix of succeeding
records, aborting at the first failure. -/
theorem batch_containment_C2 (w : JiraRecord → Bool)
    (batch : List JiraRecord) (hk : ∀ r ∈ batch, r.key.isSome)
    (pre : List JiraRecord) (r₀ : JiraRecord) (post : List JiraRecord)
    (hpre : ∀ x ∈ pre, x.key.isSome) (hr₀ : r₀.key = none)
    {α κ : Type} (wg : α → Bool) (key : α → κ) (gbatch : List α) :
    loadToNeo4jJE w batch =
      (batch.map (fun r => (r.key.getD "", w r)), false) ∧
    loadToNeo4jJE w (pre ++ r₀ :: post) =
      (pre.map (fun x => (x.key.getD "", w x)), true) ∧
    runJGBatch wg key gbatch =
      ((gbatch.takeWhile wg).map key, gbatch.any (fun r => !(wg r))) :=
  ⟨loadToNeo4jJE_all_keys w batch hk,
   loadToNeo4jJE_abort w pre r₀ post hpre hr₀,
   runJGBatch_spec wg key gbatch⟩

/-- C2 witness: a keyed batch is fully processed; a keyless record after
one keyed record aborts with one log entry; the integrated loader's
abort on a failing first record. -/
theorem batch_containment_C2_witness :
    (∀ r ∈ [recA1, recA2], r.key.isSome) ∧
    (∀ x ∈ [recA1], x.key.isSome) ∧ recNoKey.key = none ∧
    (loadToNeo4jJE wRec [recA1, recA2] =
        ([recA1, recA2].map (fun r => (r.key.getD "", wRec r)), false) ∧
      loadToNeo4jJE wRec ([recA1] ++ recNoKey :: [recA3]) =
        ([recA1].map (fun x => (x.key.getD "", wRec x)), true) ∧
      runJGBatch wGX (fun i => i.key) [closedX1, closedX2] =
        (([closedX1, closedX2].takeWhile wGX).map (fun i => i.key),
          [closedX1, closedX2].any (fun r => !(wGX r)))) :=
  ⟨by decide, by decide, rfl,
   batch_containment_C2 wRec [recA1, recA2] (by decide) [recA1] recNoKey
     [recA3] (by decide) rfl wGX (fun i => i.key) [closedX1, closedX2]⟩

/-- C5 counterexample: with the source's tenacity configuration
(`multiplier=1, min=4, max=10`) the delays between the three attempts are
4 and 4 seconds — capped by the `min`/`max` window, not strictly
exponentially increasing. -/
theorem retry_policy_C5_counterexample :
    (retryCall 3 (tenacityWaitExp 1 4 10) failAttempt).2.1 = [4, 4] ∧
    ¬ List.Chain' (· < ·)
      (retryCall 3 (tenacityWaitExp 1 4 10) failAttempt).2.1 :=
  ⟨rfl, fun h => by
    rw [show (retryCall 3 (tenacityWaitExp 1 4 10) failAttempt).2.1 =
        [4, 4] from rfl, List.chain'_cons] at h
    exact absurd h.1 (by decide)⟩

/-- C5 (amended): a wrapped operation is attempted exactly 3 times when
every attempt fails, the final attempt's failure propagates to the
caller, and a first-attempt success stops retrying.  The delays are
non-decreasing (4 s, 4 s) under the tenacity configuration of the
discrete ETLs and strictly increasing (2000 ms, 4000 ms) under the
retrying configuration of the integrated ETL; only the latter is
strictly exponential. -/
theorem retry_policy_C5 {ε α : Type} (a b : Nat → Except ε α)
    (ha : ∀ n, (a n).isOk = false) (x : α) (hb : b 1 = .ok x) :
    (retryCall 3 (tenacityWaitExp 1 4 10) a).2.2 = 3 ∧
    (retryCall 3 (tenacityWaitExp 1 4 10) a).1 = a 3 ∧
    (retryCall 3 (tenacityWaitExp 1 4 10) a).2.1 = [4, 4] ∧
    List.Chain' (· ≤ ·) (retryCall 3 (tenacityWaitExp 1 4 10) a).2.1 ∧
    (retryCall 3 (retryingWaitExp 1000 1073741823) a).2.1 = [2000, 4000] ∧
    List.Chain' (· < ·)
      (retryCall 3 (retryingWaitExp 1000 1073741823) a).2.1 ∧
    retryCall 3 (tenacityWaitExp 1 4 10) b = (.ok x, [], 1) := by
  have e1 : retryCall 3 (tenacityWaitExp 1 4 10) a = (a 3, [4, 4], 3) :=
    (retryCallAux_all_fail _ a ha 2 1).trans rfl
  have e2 : retryCall 3 (retryingWaitExp 1000 1073741823) a =
      (a 3, [2000, 4000], 3) :=
    (retryCallAux_all_fail _ a ha 2 1).trans rfl
  have e3 : retryCall 3 (tenacityWaitExp 1 4 10) b = (.ok x, [], 1) := by
    show retryCallAux (tenacityWaitExp 1 4 10) b 1 2 = _
    simp only [retryCallAux, hb]
  refine ⟨?_, ?_, ?_, ?_, ?_, ?_, e3⟩
  · rw [e1]
  · rw [e1]
  · rw [e1]
  · rw [e1]
    exact List.chain'_cons.mpr ⟨by decide, List.chain'_singleton 4⟩
  · rw [e2]
  · rw [e2]
    exact List.chain'_cons.mpr ⟨by decide, List.chain'_singleton 4000⟩

/-- C5 witness: the always-failing and first-try-succeeding attempt
functions instantiate the retry contract. -/
theorem retry_policy_C5_witness :
    (∀ n, (failAttempt n).isOk = false) ∧ okAttempt 1 = .ok 7 ∧
    ((retryCall 3 (tenacityWaitExp 1 4 10) failAttempt).2.2 = 3 ∧
      (retryCall 3 (tenacityWaitExp 1 4 10) failAttempt).1 = failAttempt 3 ∧
      (retryCall 3 (tenacityWaitExp 1 4 10) failAttempt).2.1 = [4, 4] ∧
      List.Chain' (· ≤ ·)
        (retryCall 3 (tenacityWaitExp 1 4 10) failAttempt).2.1 ∧
      (retryCall 3 (retryingWaitExp 1000 1073741823) failAttempt).2.1 =
        [2000, 4000] ∧
      List.Chain' (· < ·)
        (retryCall 3 (retryingWaitExp 1000 1073741823) failAttempt).2.1 ∧
      retryCall 3 (tenacityWaitExp 1 4 10) okAttempt = (.ok 7, [], 1)) :=
  ⟨fun n => rfl, rfl,
   retry_policy_C5 failAttempt okAttempt (fun n => rfl) 7 rfl⟩

/-- C6 counterexample: the discrete JIRA ETL's pagination loop issues
consecutive page requests with no delay event between them — the trace of
a two-page fetch is two adjacent requests and nothing else. -/
theorem pagination_C6_counterexample :
    (runEtlProjectPages pages2 2 0 5).2 =
      [.request 0 [1, 2], .request 2 [3]] ∧
    ∀ e ∈ (runEtlProjectPages pages2 2 0 5).2, FetchEvent.isRequest e = true :=
  ⟨rfl, by decide⟩

/-- C6 (amended): both pagination loops request fixed-size pages and
terminate exactly on the first short (or empty) page, returning the
concatenation of the returned pages in request order.  The integrated
ETL sleeps its configured delay between consecutive page requests, but
the discrete JIRA ETL's loop has no delay at all between pages. -/
theorem pagination_C6 {α : Type} (pages : Nat → List α)
    (bs delay mr k fuel s k2 fuel2 s2 : Nat)
    (h1 : k < fuel) (h2 : ∀ i, i < k → (pages (s + i * bs)).length = bs)
    (h3 : (pages (s + k * bs)).length < bs)
    (h4 : k2 < fuel2) (h5 : ∀ i, i < k2 → (pages (s2 + i * mr)).length = mr)
    (h6 : (pages (s2 + k2 * mr)).length < mr) :
    (fetchJiraBatch pages bs delay s fuel).1 =
      (List.range (k + 1)).flatMap (fun i => pages (s + i * bs)) ∧
    List.Chain' (fun a b => ¬(a.isRequest = true ∧ b.isRequest = true))
      (fetchJiraBatch pages bs delay s fuel).2 ∧
    (runEtlProjectPages pages mr s2 fuel2).1 =
      (List.range (k2 + 1)).flatMap (fun i => pages (s2 + i * mr)) ∧
    (∀ e ∈ (runEtlProjectPages pages mr s2 fuel2).2, e.isRequest = true) :=
  ⟨fetchJiraBatch_spec pages bs delay k fuel s h1 h2 h3,
   fetchJiraBatch_sleep_sep pages bs delay fuel s,
   runEtlProjectPages_spec pages mr k2 fuel2 s2 h4 h5 h6,
   runEtlProjectPages_no_sleep pages mr fuel2 s2⟩

/-- C6 witness: a two-page upstream (one full page of 2, one short page)
instantiates both loops. -/
theorem pagination_C6_witness :
    1 < 5 ∧ (∀ i, i < 1 → (pages2 (0 + i * 2)).length = 2) ∧
    (pages2 (0 + 1 * 2)).length < 2 ∧
    ((fetchJiraBatch pages2 2 7 0 5).1 =
        (List.range (1 + 1)).flatMap (fun i => pages2 (0 + i * 2)) ∧
      List.Chain' (fun a b => ¬(a.isRequest = true ∧ b.isRequest = true))
        (fetchJiraBatch pages2 2 7 0 5).2 ∧
      (runEtlProjectPages pages2 2 0 5).1 =
        (List.range (1 + 1)).flatMap (fun i => pages2 (0 + i * 2)) ∧
      (∀ e ∈ (runEtlProjectPages pages2 2 0 5).2, e.isRequest = true)) :=
  ⟨by decide,
   fun i hi => by
     have h : i = 0 := by omega
     subst h
     rfl,
   by decide,
   pagination_C6 pages2 2 7 2 1 5 0 1 5 0 (by decide)
     (fun i hi => by
       have h : i = 0 := by omega
       subst h
       rfl)
     (by decide) (by decide)
     (fun i hi => by
       have h : i = 0 := by omega
       subst h
       rfl)
     (by decide)⟩

/-- C7: technology names are case-normalized before lookup/create.  Every
name added by the integrated ETL's `_extract_technologies` is produced by
`.lower()`; every name added by the cross-reference ETL's
`extract_technologies` is lower-case-fixed (under the regex contract that
a match is a substring of the searched, lower-cased text); two
lower-case-fixed names equal up to case are equal (no casing-duplicate
nodes); and two mentions whose names agree up to case resolve to a single
technology node entry named with the lower-cased name, with both
`INVOLVES` edges pointing at it. -/
theorem technology_case_norm_C7 (pats : List JGMatcher)
    (jrecs : List JiraIssueData) (grecs : List GitHubIssueData) (g : JGGraph)
    (xpats : List XMatcher) (xg : XGraph)
    (hsub : ∀ m ∈ xpats, ∀ (t : String) (row : List String) (x : String),
      row ∈ m t → row.head? = some x → x.data <:+: t.data)
    (g₂ : JGGraph) (k₁ k₂ w₁ w₂ : String)
    (hw : w₁.toLower = w₂.toLower)
    (hk₁ : k₁ ∈ g₂.jiraIssues.map Prod.fst)
    (hk₂ : k₂ ∈ g₂.jiraIssues.map Prod.fst) :
    (∀ n ∈ (extractTechnologiesTx pats jrecs grecs g).technologies,
      n ∈ g.technologies ∨ ∃ w : String, n = w.toLower) ∧
    (∀ n ∈ (extractTechnologiesXTx xpats xg).technologies,
      n ∈ xg.technologies ∨ n.toLower = n) ∧
    (∀ n₁ n₂ : String, n₁.toLower = n₁ → n₂.toLower = n₂ →
      n₁.toLower = n₂.toLower → n₁ = n₂) ∧
    (createTechnologyLinkTx (.jira k₂) w₂
        (createTechnologyLinkTx (.jira k₁) w₁ g₂)).technologies =
      ensureMem w₁.toLower g₂.technologies ∧
    (⟨.jira k₁, "INVOLVES", .tech w₁.toLower⟩ : JGEdge) ∈
      (createTechnologyLinkTx (.jira k₂) w₂
        (createTechnologyLinkTx (.jira k₁) w₁ g₂)).edges ∧
    (⟨.jira k₂, "INVOLVES", .tech w₁.toLower⟩ : JGEdge) ∈
      (createTechnologyLinkTx (.jira k₂) w₂
        (createTechnologyLinkTx (.jira k₁) w₁ g₂)).edges := by
  have h1 : createTechnologyLinkTx (.jira k₁) w₁ g₂ =
      { g₂ with
        technologies := ensureMem w₁.toLower g₂.technologies
        edges :=
          ensureMem ⟨.jira k₁, "INVOLVES", .tech w₁.toLower⟩ g₂.edges } := by
    simp only [createTechnologyLinkTx]
    rw [if_pos hk₁]
  have h2 : createTechnologyLinkTx (.jira k₂)
      w₂ (createTechnologyLinkTx (.jira k₁) w₁ g₂) =
      { g₂ with
        technologies := ensureMem w₁.toLower g₂.technologies
        edges := ensureMem ⟨.jira k₂, "INVOLVES", .tech w₁.toLower⟩
          (ensureMem ⟨.jira k₁, "INVOLVES", .tech w₁.toLower⟩ g₂.edges) } := by
    rw [h1]
    simp only [createTechnologyLinkTx]
    rw [if_pos hk₂, ← hw, ensureMem_absorb]
  refine ⟨fun n hn => extractTechnologies_names pats jrecs grecs g n hn,
    extractTechnologiesXTx_names xpats hsub xg,
    fun n₁ n₂ hf₁ hf₂ h => by rw [← hf₁, h, hf₂],
    ?_, ?_, ?_⟩
  · rw [h2]
  · rw [h2]
    exact mem_ensureMem_of_mem _ (mem_ensureMem_self _ _)
  · rw [h2]
    exact mem_ensureMem_self _ _

/-- C7 witness: two mentions, "Kubernetes" and "kubernetes", on two
existing JIRA issues resolve to the single name `"Kubernetes".toLower`,
with both `INVOLVES` edges pointing at it. -/
theorem technology_case_norm_C7_witness :
    (∀ m ∈ ([] : List XMatcher), ∀ (t : String) (row : List String)
      (x : String), row ∈ m t → row.head? = some x → x.data <:+: t.data) ∧
    "Kubernetes".toLower = "kubernetes".toLower ∧
    "K-1" ∈ jgW.jiraIssues.map Prod.fst ∧
    "K-2" ∈ jgW.jiraIssues.map Prod.fst ∧
    ((∀ n ∈ (extractTechnologiesTx [] [] [] JGGraph.empty).technologies,
        n ∈ JGGraph.empty.technologies ∨ ∃ w : String, n = w.toLower) ∧
      (∀ n ∈ (extractTechnologiesXTx [] hierG).technologies,
        n ∈ hierG.technologies ∨ n.toLower = n) ∧
      (∀ n₁ n₂ : String, n₁.toLower = n₁ → n₂.toLower = n₂ →
        n₁.toLower = n₂.toLower → n₁ = n₂) ∧
      (createTechnologyLinkTx (.jira "K-2") "kubernetes"
          (createTechnologyLinkTx (.jira "K-1") "Kubernetes" jgW)).technologies =
        ensureMem "Kubernetes".toLower jgW.technologies ∧
      (⟨.jira "K-1", "INVOLVES", .tech "Kubernetes".toLower⟩ : JGEdge) ∈
        (createTechnologyLinkTx (.jira "K-2") "kubernetes"
          (createTechnologyLinkTx (.jira "K-1") "Kubernetes" jgW)).edges ∧
      (⟨.jira "K-2", "INVOLVES", .tech "Kubernetes".toLower⟩ : JGEdge) ∈
        (createTechnologyLinkTx (.jira "K-2") "kubernetes"
          (createTechnologyLinkTx (.jira "K-1") "Kubernetes" jgW)).edges) :=
  ⟨by simp,
   String.ext (by rw [string_toLower_data, string_toLower_data]; decide),
   by decide, by decide,
   technology_case_norm_C7 [] [] [] JGGraph.empty [] hierG (by simp)
     jgW "K-1" "K-2" "Kubernetes" "kubernetes"
     (String.ext (by rw [string_toLower_data, string_toLower_data]; decide))
     (by decide) (by decide)⟩

/-- C8: hierarchy derivation links a Story `CHILD_OF` an Epic (and the
Epic `PARENT_OF` the Story) whenever the Story's description or summary
contains the Epic's key or the key is among the Story's labels, and a
Task/Sub-task/Bug `CHILD_OF` a Story by the same rule; in the concrete
Epic/Story/Bug scenario, S-1 is `CHILD_OF` E-1, B-1 is `CHILD_OF` S-1,
and B-1 is not directly `CHILD_OF` E-1. -/
theorem hierarchy_derivation_C8 (g : XGraph)
    (ep sp tp : String × IssueProps)
    (hep : ep ∈ g.issues) (hsp : sp ∈ g.issues) (htp : tp ∈ g.issues)
    (hept : ep.2.issueType = "Epic") (hspt : sp.2.issueType = "Story")
    (htpt : tp.2.issueType = "Task" ∨ tp.2.issueType = "Sub-task" ∨
      tp.2.issueType = "Bug")
    (hcond₁ : pyIn ep.1 sp.2.description = true ∨
      pyIn ep.1 sp.2.summary = true ∨ ep.1 ∈ sp.2.labels)
    (hcond₂ : pyIn sp.1 tp.2.description = true ∨
      pyIn sp.1 tp.2.summary = true ∨ sp.1 ∈ tp.2.labels) :
    ((⟨.issue sp.1, "CHILD_OF", .issue ep.1⟩ : XEdge) ∈
        (createHierarchyRelationshipsTx g).edges ∧
      (⟨.issue ep.1, "PARENT_OF", .issue sp.1⟩ : XEdge) ∈
        (createHierarchyRelationshipsTx g).edges ∧
      (⟨.issue tp.1, "CHILD_OF", .issue sp.1⟩ : XEdge) ∈
        (createHierarchyRelationshipsTx g).edges ∧
      (⟨.issue sp.1, "PARENT_OF", .issue tp.1⟩ : XEdge) ∈
        (createHierarchyRelationshipsTx g).edges) ∧
    ((⟨.issue "S-1", "CHILD_OF", .issue "E-1"⟩ : XEdge) ∈ hierOut.edges ∧
      (⟨.issue "B-1", "CHILD_OF", .issue "S-1"⟩ : XEdge) ∈ hierOut.edges ∧
      (⟨.issue "B-1", "CHILD_OF", .issue "E-1"⟩ : XEdge) ∉ hierOut.edges) := by
  have hes : ∀ e ∈ ([⟨.issue sp.1, "CHILD_OF", .issue ep.1⟩,
      ⟨.issue ep.1, "PARENT_OF", .issue sp.1⟩] : List XEdge),
      e ∈ epicStoryCands g := by
    intro e he
    simp only [epicStoryCands, List.mem_flatMap]
    refine ⟨ep, hep, ?_⟩
    rw [if_pos (by simp [hept] : (ep.2.issueType == "Epic") = true)]
    simp only [List.mem_flatMap]
    refine ⟨sp, hsp, ?_⟩
    rw [if_pos ?_]
    · exact he
    · simp only [Bool.and_eq_true, Bool.or_eq_true, beq_iff_eq]
      refine ⟨hspt, ?_⟩
      rcases hcond₁ with h | h | h
      · exact Or.inl (Or.inl h)
      · exact Or.inl (Or.inr h)
      · exact Or.inr (List.elem_eq_true_of_mem h)
  have hts : ∀ e ∈ ([⟨.issue tp.1, "CHILD_OF", .issue sp.1⟩,
      ⟨.issue sp.1, "PARENT_OF", .issue tp.1⟩] : List XEdge),
      e ∈ storyTaskCands g := by
    intro e he
    simp only [storyTaskCands, List.mem_flatMap]
    refine ⟨sp, hsp, ?_⟩
    rw [if_pos (by simp [hspt] : (sp.2.issueType == "Story") = true)]
    simp only [List.mem_flatMap]
    refine ⟨tp, htp, ?_⟩
    rw [if_pos ?_]
    · exact he
    · simp only [Bool.and_eq_true, Bool.or_eq_true, beq_iff_eq]
      constructor
      · rcases htpt with h | h | h
        · exact Or.inl (Or.inl h)
        · exact Or.inl (Or.inr h)
        · exact Or.inr h
      · rcases hcond₂ with h | h | h
        · exact Or.inl (Or.inl h)
        · exact Or.inl (Or.inr h)
        · exact Or.inr (List.elem_eq_true_of_mem h)
  simp only [createHierarchyRelationships_closed, mem_foldEnsure_iff]
  exact ⟨⟨Or.inl (Or.inl (Or.inr (hes _ (by simp)))),
      Or.inl (Or.inl (Or.inr (hes _ (by simp)))),
      Or.inl (Or.inr (hts _ (by simp))),
      Or.inl (Or.inr (hts _ (by simp)))⟩,
    by decide, by decide, by decide⟩

/-- C8 witness: the Epic/Story/Bug graph instantiates the general
derivation rule. -/
theorem hierarchy_derivation_C8_witness :
    epicE ∈ hierG.issues ∧ storyS ∈ hierG.issues ∧ bugB ∈ hierG.issues ∧
    epicE.2.issueType = "Epic" ∧ storyS.2.issueType = "Story" ∧
    (bugB.2.issueType = "Task" ∨ bugB.2.issueType = "Sub-task" ∨
      bugB.2.issueType = "Bug") ∧
    (pyIn epicE.1 storyS.2.description = true ∨
      pyIn epicE.1 storyS.2.summary = true ∨ epicE.1 ∈ storyS.2.labels) ∧
    (pyIn storyS.1 bugB.2.description = true ∨
      pyIn storyS.1 bugB.2.summary = true ∨ storyS.1 ∈ bugB.2.labels) ∧
    (((⟨.issue storyS.1, "CHILD_OF", .issue epicE.1⟩ : XEdge) ∈
        (createHierarchyRelationshipsTx hierG).edges ∧
      (⟨.issue epicE.1, "PARENT_OF", .issue storyS.1⟩ : XEdge) ∈
        (createHierarchyRelationshipsTx hierG).edges ∧
      (⟨.issue bugB.1, "CHILD_OF", .issue storyS.1⟩ : XEdge) ∈
        (createHierarchyRelationshipsTx hierG).edges ∧
      (⟨.issue storyS.1, "PARENT_OF", .issue bugB.1⟩ : XEdge) ∈
        (createHierarchyRelationshipsTx hierG).edges) ∧
    ((⟨.issue "S-1", "CHILD_OF", .issue "E-1"⟩ : XEdge) ∈ hierOut.edges ∧
      (⟨.issue "B-1", "CHILD_OF", .issue "S-1"⟩ : XEdge) ∈ hierOut.edges ∧
      (⟨.issue "B-1", "CHILD_OF", .issue "E-1"⟩ : XEdge) ∉ hierOut.edges)) :=
  ⟨by decide, by decide, by decide, rfl, rfl, Or.inr (Or.inr rfl),
   Or.inl rfl, Or.inl rfl,
   hierarchy_derivation_C8 hierG epicE storyS bugB (by decide) (by decide)
     (by decide) rfl rfl (Or.inr (Or.inr rfl)) (Or.inl rfl) (Or.inl rfl)⟩

/-- C4: every edge added by the reference resolvers has both endpoint
nodes present in the graph at creation time (ADDRESSES/TRACKED_IN,
IMPLEMENTS/IMPLEMENTED_IN, REFERENCES/REFERENCED_BY, and the integrated
ETL's cross-references), and a pattern none of whose candidate
identifiers resolves to an existing target produces zero edges and
leaves the graph unchanged. -/
theorem referential_consistency_C4 (xpats : List XMatcher) (xg : XGraph)
    (pats : List JGMatcher) (g : JGGraph) (m : JGMatcher)
    (hmiss : ∀ text ref, ref ∈ m text → ref ∉ g.jiraIssues.map Prod.fst) :
    (∀ e ∈ (createJiraGithubReferencesTx xpats xg).edges,
      e ∈ xg.edges ∨ xEndpointsOk xg e) ∧
    (∀ e ∈ (createGithubJiraReferencesTx xpats xg).edges,
      e ∈ xg.edges ∨ xEndpointsOk xg e) ∧
    (∀ e ∈ (createCrossReferencesTx pats g).edges,
      e ∈ g.edges ∨ jgEndpointsOk g e) ∧
    jgCrossRefCands m g = [] ∧
    createCrossReferencesTx [m] g = g := by
  have hnil : jgCrossRefCands m g = [] := jgCrossRefCands_nil_of_miss m g hmiss
  refine ⟨?_, ?_, ?_, hnil, ?_⟩
  · intro e he
    rw [createJiraGithubReferences_closed] at he
    replace he : e ∈ foldEnsure xg.edges
        (xpats.flatMap (fun m => addressesCands m xg ++ implementsCands m xg)) :=
      he
    rcases mem_foldEnsure_iff.mp he with h | h
    · exact Or.inl h
    · obtain ⟨mm, hmm, h⟩ := List.mem_flatMap.mp h
      rcases List.mem_append.mp h with h | h
      · exact Or.inr (addressesCands_endpoints mm xg e h)
      · exact Or.inr (implementsCands_endpoints mm xg e h)
  · intro e he
    rw [createGithubJiraReferences_closed] at he
    replace he : e ∈ foldEnsure xg.edges
        (xpats.flatMap (fun m => referencesCands m xg)) := he
    rcases mem_foldEnsure_iff.mp he with h | h
    · exact Or.inl h
    · obtain ⟨mm, hmm, h⟩ := List.mem_flatMap.mp h
      exact Or.inr (referencesCands_endpoints mm xg e h)
  · intro e he
    rw [createCrossReferences_edges] at he
    replace he : e ∈ foldEnsure g.edges
        (pats.flatMap (fun m => jgCrossRefCands m g)) := he
    rcases mem_foldEnsure_iff.mp he with h | h
    · exact Or.inl h
    · obtain ⟨mm, hmm, h⟩ := List.mem_flatMap.mp h
      exact Or.inr (jgCrossRefCands_endpoints mm g e h)
  · show crossRefPatternTx m g = g
    unfold crossRefPatternTx
    rw [hnil]
    rfl

/-- C4 witness: a matcher that only ever extracts the unresolvable key
ZZ-9 creates zero edges on a two-issue graph. -/
theorem referential_consistency_C4_witness :
    (∀ text ref, ref ∈ missMatcher text →
      ref ∉ jgW.jiraIssues.map Prod.fst) ∧
    ((∀ e ∈ (createJiraGithubReferencesTx [] hierG).edges,
        e ∈ hierG.edges ∨ xEndpointsOk hierG e) ∧
      (∀ e ∈ (createGithubJiraReferencesTx [] hierG).edges,
        e ∈ hierG.edges ∨ xEndpointsOk hierG e) ∧
      (∀ e ∈ (createCrossReferencesTx [] jgW).edges,
        e ∈ jgW.edges ∨ jgEndpointsOk jgW e) ∧
      jgCrossRefCands missMatcher jgW = [] ∧
      createCrossReferencesTx [missMatcher] jgW = jgW) :=
  ⟨fun text ref h => by
     simp only [missMatcher, List.mem_singleton] at h
     subst h
     decide,
   referential_consistency_C4 [] hierG [] jgW missMatcher
     (fun text ref h => by
       simp only [missMatcher, List.mem_singleton] at h
       subst h
       decide)⟩

/-- C3: running the full sync pass twice over identical upstream data
(with a fresh sync timestamp on each pass) equals running it once; node
and edge counts of a single pass do not depend on the timestamp; and
every node upsert and relationship-creation operation applied N+1 times
equals one application. -/
theorem sync_idempotence_C3 (cfg : JGConfig) (t₁ t₂ : Nat)
    (jrecs : List JiraIssueData) (grecs : List GitHubIssueData) (g : JGGraph)
    (now : Nat) (i : JiraIssueData) (cats : List (String × List String))
    (gi : GitHubIssueData) (pats : List JGMatcher)
    (xpats : List XMatcher) (xg : XGraph) (n : Nat) :
    fullSyncLoad cfg t₂ jrecs grecs (fullSyncLoad cfg t₁ jrecs grecs g) =
      fullSyncLoad cfg t₂ jrecs grecs g ∧
    (fullSyncLoad cfg t₂ jrecs grecs g).nodeCount =
      (fullSyncLoad cfg t₁ jrecs grecs g).nodeCount ∧
    (fullSyncLoad cfg t₂ jrecs grecs g).edgeCount =
      (fullSyncLoad cfg t₁ jrecs grecs g).edgeCount ∧
    (createJiraIssueTx now i)^[n + 1] g = createJiraIssueTx now i g ∧
    (createGitHubIssueTx cats now gi)^[n + 1] g =
      createGitHubIssueTx cats now gi g ∧
    (createCrossReferencesTx pats)^[n + 1] g = createCrossReferencesTx pats g ∧
    (createJiraGithubReferencesTx xpats)^[n + 1] xg =
      createJiraGithubReferencesTx xpats xg := by
  refine ⟨?_, ?_, ?_,
    iterate_idem _ (createJiraIssueTx_idem now i) n g,
    iterate_idem _ (createGitHubIssueTx_idem cats now gi) n g,
    iterate_idem _ (createCrossReferencesTx_idem pats) n g,
    iterate_idem _ (createJiraGithubReferencesTx_idem xpats) n xg⟩
  · rw [fullSyncLoad_eq_closed, fullSyncLoad_eq_closed, fullSyncLoad_eq_closed,
      fullSyncLoadClosed_idem]
  · rw [fullSyncLoad_eq_closed, fullSyncLoad_eq_closed]
    exact (fullSyncLoadClosed_counts cfg t₁ t₂ jrecs grecs g).1
  · rw [fullSyncLoad_eq_closed, fullSyncLoad_eq_closed]
    exact (fullSyncLoadClosed_counts cfg t₁ t₂ jrecs grecs g).2

end GraphServer
